import Mathlib

set_option maxHeartbeats 1000000

/-!
Shallow embedding of CoilSnake's `FontModule`
(src/coilsnake/modules/eb/FontModule.py).

The orchestration code (`write_to_rom`, `read_from_project`,
`write_to_project`, `upgrade_project`, the module constants) is translated
directly from the source.  Its collaborators (the address translator, the
pointer-reference classes, the font codec, the table codec, the free-space
allocator, the credits font and the project resource store) are not under
src/; those definitions are modelled from the spec and carry a doc comment
saying so.
-/

/-- Modelled from the spec: §4.1 Address Translator
(`coilsnake.util.eb.pointer.from_snes_address` is not under src/).
Linear buffer offset of a banked address; bijective with `to_snes_address`
over the module's address range. -/
def from_snes_address (a : Nat) : Nat := a - 0xC00000

/-- Modelled from the spec: §4.1 Address Translator
(`coilsnake.util.eb.pointer.to_snes_address` is not under src/).
Banked form of a linear buffer offset. -/
def to_snes_address (a : Nat) : Nat := a + 0xC00000

/-- Modelled from the spec: §6 ROM buffer contract (the `Block` class is not
under src/).  A mutable randomly addressable byte buffer: `mem` is the write
log (newest first, bytes reduced mod 256, unwritten bytes read as 0) and
`freeRanges` is the allocator's configured set of free byte ranges
(inclusive bounds). -/
structure Rom where
  mem : List (Nat × Nat)
  freeRanges : List (Nat × Nat)
deriving DecidableEq, Repr

/-- Modelled from the spec: §6, `read(offset, 1)` on the ROM buffer. -/
def Rom.read (rom : Rom) (a : Nat) : Nat :=
  match rom.mem.find? (fun p => p.1 == a) with
  | some p => p.2
  | none => 0

/-- Modelled from the spec: §6, a single-byte `write` on the ROM buffer. -/
def Rom.writeByte (rom : Rom) (a v : Nat) : Rom :=
  { rom with mem := (a, v % 256) :: rom.mem }

/-- Modelled from the spec: §6, `write(offset, bytes)` on the ROM buffer. -/
def Rom.writeBytes (rom : Rom) (a : Nat) : List Nat → Rom
  | [] => rom
  | b :: bs => (rom.writeByte a b).writeBytes (a + 1) bs

/-- Modelled from the spec: §6, first-fit search over the configured free
ranges; returns the placed offset and the remaining ranges. -/
def allocateAux : List (Nat × Nat) → Nat → Option (Nat × List (Nat × Nat))
  | [], _ => none
  | (lo, hi) :: rest, size =>
    if size ≤ hi + 1 - lo then
      some (lo, if lo + size ≤ hi then (lo + size, hi) :: rest else rest)
    else
      match allocateAux rest size with
      | some (off, rest') => some (off, (lo, hi) :: rest')
      | none => none

/-- Modelled from the spec: §6, `allocate(size) -> offset` (first-fit;
exhaustion signals an allocation error, here `none`). -/
def Rom.allocate (rom : Rom) (size : Nat) : Option (Nat × Rom) :=
  match allocateAux rom.freeRanges size with
  | some (off, ranges) => some (off, { rom with freeRanges := ranges })
  | none => none

/-- Little-endian byte decomposition of the low 3 bytes of a value. -/
def le3 (v : Nat) : List Nat := [v % 256, v / 256 % 256, v / 65536 % 256]

/-- Little-endian byte decomposition of the low 2 bytes of a value. -/
def le2 (v : Nat) : List Nat := [v % 256, v / 256 % 256]

/-- Little-endian byte decomposition of the low 4 bytes of a value. -/
def le4 (v : Nat) : List Nat :=
  [v % 256, v / 256 % 256, v / 65536 % 256, v / 16777216 % 256]

/-- Modelled from the spec: §3/§4.2 Pointer Reference
(`AsmPointerReference` and `XlPointerReference` from
`coilsnake.util.eb.pointer` are not under src/).  A patch-site descriptor:
`xl` is the direct-address encoding with an optional constant added to the
written value, `asm` is the instruction-operand encoding. -/
inductive PointerReference where
  | xl (site : Nat) (pointer_offset : Nat)
  | asm (site : Nat)
deriving DecidableEq, Repr

/-- The fixed patch-site offset of a pointer reference. -/
def PointerReference.site : PointerReference → Nat
  | .xl s _ => s
  | .asm s => s

/-- The constant added to the written value (defaults to 0). -/
def PointerReference.pointer_offset : PointerReference → Nat
  | .xl _ o => o
  | .asm _ => 0

/-- Modelled from the spec: §4.2, `write(buffer, newAddress)`: adds the
declared patch offset and overwrites exactly the 3 low-order bytes of the
resulting banked address at the fixed site, under either encoding. -/
def PointerReference.write (r : PointerReference) (rom : Rom) (address : Nat) : Rom :=
  rom.writeBytes r.site (le3 ((address + r.pointer_offset) % 0x1000000))

/-- The 3-byte little-endian value currently stored at a patch site. -/
def readPointer (rom : Rom) (a : Nat) : Nat :=
  rom.read a + 256 * rom.read (a + 1) + 65536 * rom.read (a + 2)

/-- Source line 15: banked address of the original font pointer table. -/
def FONT_POINTER_TABLE_OFFSET : Nat := 0xC3F054

/-- Source line 16: fixed row width of the font pointer table in bytes. -/
def FONT_POINTER_TABLE_ENTRY_SIZE : Nat := 12

/-- Source line 17: project resource names of the five base fonts. -/
def FONT_FILENAMES : List String := ["0", "1", "3", "4", "2"]

/-- Source line 19: exclusive upper bound for extension-font discovery. -/
def MAX_FONT_INDEX : Nat := 64

/-- Source line 21. -/
def CREDITS_GRAPHICS_ASM_POINTER : Nat := 0x4f1a7

/-- Source line 22. -/
def CREDITS_PALETTES_ADDRESS : Nat := 0x21e914

/-- Source lines 27-31: the module's configured free byte ranges. -/
def FREE_RANGES : List (Nat × Nat) :=
  [(0x21e528, 0x21e913), (0x210c7a, 0x212ef9), (0x201359, 0x201fb8)]

/-- Source lines 32-67: the static list of pointer references patched after
the font pointer table is relocated. -/
def FONT_POINTER_TABLE_REFERENCES : List PointerReference :=
  [ .xl 0x43E7E 0,
    .xl 0x43E84 2,
    .asm 0x43E98,
    .xl 0x440F8 0,
    .xl 0x440FE 2,
    .xl 0x4420E 0,
    .xl 0x44214 2,
    .xl 0x44284 0,
    .xl 0x4428A 2,
    .asm 0x4433F,
    .asm 0x44512,
    .asm 0x44761,
    .asm 0x44EF4,
    .asm 0x4502D,
    .asm 0x450EC,
    .asm 0x48292,
    .asm 0x499AE,
    .asm 0x4E593,
    .asm 0x4EDB6,
    .xl 0x2F0205 0,
    .xl 0x2F020B 2,
    .xl 0x44363 4,
    .xl 0x44369 6,
    .xl 0x47D42 (FONT_POINTER_TABLE_ENTRY_SIZE * 2 + 4),
    .xl 0x47D48 (FONT_POINTER_TABLE_ENTRY_SIZE * 2 + 6),
    .xl 0x44551 (FONT_POINTER_TABLE_ENTRY_SIZE * 3 + 4),
    .xl 0x44557 (FONT_POINTER_TABLE_ENTRY_SIZE * 3 + 6) ]

/-- Modelled from the spec: §3 Font resource (`coilsnake.model.eb.fonts.EbFont`
is not under src/).  Character count, tile geometry, the strip bitmap
(rows of palette indices) and the character-width table. -/
structure EbFont where
  num_characters : Nat
  tile_width : Nat
  tile_height : Nat
  bitmap : List (List Nat)
  widths : List (Nat × Nat)
deriving DecidableEq, Repr

/-- Width of character `c`; an absent entry encodes as width 0 (spec §4.3). -/
def lookupWidth (ws : List (Nat × Nat)) (c : Nat) : Nat :=
  match ws.find? (fun p => p.1 == c) with
  | some p => p.2
  | none => 0

/-- Modelled from the spec: §4.3 codec `encode`, widths half: one byte per
character, absent entries as 0. -/
def EbFont.widthsBytes (f : EbFont) : List Nat :=
  (List.range f.num_characters).map (fun c => lookupWidth f.widths c % 256)

/-- Pixel of the strip bitmap at column `x`, row `y` (out-of-range reads 0),
reduced to the 16-colour palette range. -/
def EbFont.pixel (f : EbFont) (x y : Nat) : Nat :=
  ((f.bitmap.getD y []).getD x 0) % 16

/-- Modelled from the spec: §4.3 codec `encode`, tileset half: per character
`tile_height` rows of `tile_width` 4-bit pixels, two pixels per byte; the
output size is fully determined by the geometry (no compression). -/
def EbFont.tilesetBytes (f : EbFont) : List Nat :=
  (List.range (f.num_characters * f.tile_width * f.tile_height / 2)).map (fun i =>
    let p0 := 2 * i
    let p1 := 2 * i + 1
    let coord := fun p =>
      let c := p / (f.tile_width * f.tile_height)
      let r := p % (f.tile_width * f.tile_height)
      (c * f.tile_width + r % f.tile_width, r / f.tile_width)
    16 * f.pixel (coord p0).1 (coord p0).2 + f.pixel (coord p1).1 (coord p1).2)

/-- Modelled from the spec: §4.5 (`EbFont.to_block` is not under src/):
allocate space sized to the packed tileset, write it, allocate space sized
to the packed widths, write them; returns
`(graphics_offset, widths_offset)` plus the evolved buffer. -/
def EbFont.to_block (f : EbFont) (rom : Rom) : Option (Nat × Nat × Rom) :=
  match rom.allocate f.tilesetBytes.length with
  | none => none
  | some (graphics_offset, rom1) =>
    let rom2 := rom1.writeBytes graphics_offset f.tilesetBytes
    match rom2.allocate f.widthsBytes.length with
    | none => none
    | some (widths_offset, rom3) =>
      some (graphics_offset, widths_offset, rom3.writeBytes widths_offset f.widthsBytes)

/-- Modelled from the spec: §3/§4.4 Pointer Table (`coilsnake.model.eb.table`
is not under src/): a fixed-row-width table with a row count and the decoded
row values (four logical fields per row). -/
structure EbTable where
  num_rows : Nat
  values : List (List Nat)
deriving DecidableEq, Repr

/-- Modelled from the spec: §4.4 row deserialization: widths address (4
bytes), tileset address (4 bytes), bytes-per-tile-row (2 bytes), tile
height (2 bytes), little-endian, 12 bytes per row. -/
def Rom.readLe (rom : Rom) (a : Nat) : Nat → Nat
  | 0 => 0
  | n + 1 => rom.read a + 256 * rom.readLe (a + 1) n

/-- Modelled from the spec: §4.4, decode one 12-byte row. -/
def deserializeRow (rom : Rom) (a : Nat) : List Nat :=
  [rom.readLe a 4, rom.readLe (a + 4) 4, rom.readLe (a + 8) 2, rom.readLe (a + 10) 2]

/-- Modelled from the spec: §4.4, encode one row back into its 12 bytes. -/
def serializeRow (r : List Nat) : List Nat :=
  le4 (r.getD 0 0) ++ le4 (r.getD 1 0) ++ le2 (r.getD 2 0) ++ le2 (r.getD 3 0)

/-- Modelled from the spec: §4.4 `load`: read `num_rows` fixed-width rows. -/
def EbTable.from_block (t : EbTable) (rom : Rom) (off : Nat) : EbTable :=
  { t with
    values := (List.range t.num_rows).map
      (fun i => deserializeRow rom (off + FONT_POINTER_TABLE_ENTRY_SIZE * i)) }

/-- The byte image of the table: its first `num_rows` rows, serialized. -/
def tableBytes (t : EbTable) : List Nat :=
  ((t.values.take t.num_rows).map serializeRow).flatten

/-- Modelled from the spec: §4.4 `store`: write the rows at `off`. -/
def EbTable.to_block (t : EbTable) (rom : Rom) (off : Nat) : Rom :=
  rom.writeBytes off (tableBytes t)

/-- Source line 71 `self.font_pointer_table[i][j] = v`: update one logical
field of one row. -/
def EbTable.setField (t : EbTable) (i j v : Nat) : EbTable :=
  { t with values := t.values.set i ((t.values.getD i []).set j v) }

/-- Source lines 99-100: `while len(values) < len(fonts): values.append([0,0,0,0])`. -/
def padRows (vs : List (List Nat)) (n : Nat) : List (List Nat) :=
  vs ++ List.replicate (n - vs.length) [0, 0, 0, 0]

/-- Modelled from the spec: §3 Credits font (`EbCreditsFont` is not under
src/): a fixed-layout graphics blob plus a small fixed palette. -/
structure EbCreditsFont where
  graphics : List Nat
  palette : List Nat
deriving DecidableEq, Repr

/-- Modelled from the spec: §4.5 (`EbCreditsFont.to_block` is not under
src/): allocate and write the graphics, patch the asm pointer with the
graphics' banked address, write the palette at its fixed offset. -/
def EbCreditsFont.to_block (f : EbCreditsFont) (rom : Rom)
    (tileset_asm_pointer_offset palette_offset : Nat) : Option Rom :=
  match rom.allocate f.graphics.length with
  | none => none
  | some (g, rom1) =>
    let rom2 := rom1.writeBytes g f.graphics
    let rom3 := rom2.writeBytes tileset_asm_pointer_offset (le3 (to_snes_address g % 0x1000000))
    some (rom3.writeBytes palette_offset f.palette)

/-- Source lines 102-109: the per-font loop of `write_to_rom`: encode each
font into freshly allocated space and record the new addresses and derived
geometry into the table row of that font. -/
def writeFontsLoop : List EbFont → Nat → EbTable → Rom → Option (EbTable × Rom)
  | [], _, t, rom => some (t, rom)
  | font :: rest, i, t, rom =>
    match font.to_block rom with
    | none => none
    | some (graphics_offset, widths_offset, rom2) =>
      let ta := t.setField i 0 (to_snes_address widths_offset)
      let tb := ta.setField i 1 (to_snes_address graphics_offset)
      let tc := tb.setField i 2 (font.tile_height * font.tile_width / 8)
      let td := tc.setField i 3 font.tile_height
      writeFontsLoop rest (i + 1) td rom2

/-- Source lines 92-119, `write_to_rom` (minus logging).  Reads the table at
the fixed offset, grows it to `len(fonts)` zero-initialized rows, writes
every font and its row fields, allocates and relocates the table, patches
every static pointer reference with the new table's banked address, then
writes the credits font.  Being a pure translation of mutating code it
returns the mutated table, the final buffer, and (for specification) the
local `new_table_offset`. -/
def write_to_rom (fonts : List EbFont) (credits_font : EbCreditsFont)
    (font_pointer_table : EbTable) (rom : Rom) : Option (EbTable × Rom × Nat) :=
  let t0 := font_pointer_table.from_block rom (from_snes_address FONT_POINTER_TABLE_OFFSET)
  let t1 : EbTable := { num_rows := fonts.length, values := padRows t0.values fonts.length }
  match writeFontsLoop fonts 0 t1 rom with
  | none => none
  | some (t2, rom1) =>
    match rom1.allocate (fonts.length * FONT_POINTER_TABLE_ENTRY_SIZE) with
    | none => none
    | some (new_table_offset, rom2) =>
      let rom3 := FONT_POINTER_TABLE_REFERENCES.foldl
        (fun block pointer => pointer.write block (to_snes_address new_table_offset)) rom2
      let rom4 := t2.to_block rom3 new_table_offset
      match credits_font.to_block rom4 CREDITS_GRAPHICS_ASM_POINTER CREDITS_PALETTES_ADDRESS with
      | none => none
      | some rom5 => some (t2, rom5, new_table_offset)

/-- Modelled from the spec: §6 project resource store (the resource layer is
not under src/): a stored file is either an indexed image (`png`) or a
character-width mapping (`yml`). -/
inductive ProjFile where
  | png (image : List (List Nat))
  | yml (widths : List (Nat × Nat))
deriving DecidableEq, Repr

/-- Look a resource up in an on-disk project, by full resource name. -/
def findResource (rs : List (String × ProjFile)) (name : String) : Option ProjFile :=
  (rs.find? (fun p => p.1 == name)).map (fun p => p.2)

/-- Modelled from the spec: §6, opening a resource for writing replaces its
content (or creates it). -/
def writeResource (rs : List (String × ProjFile)) (name : String) (file : ProjFile) :
    List (String × ProjFile) :=
  if (rs.find? (fun p => p.1 == name)).isSome then
    rs.map (fun p => if p.1 == name then (p.1, file) else p)
  else
    rs ++ [(name, file)]

/-- Modelled from the spec: opening an image resource; a missing resource or
a resource that is not an indexed image fails. -/
def openPng (store : String → Option ProjFile) (name : String) : Option (List (List Nat)) :=
  match store name with
  | some (.png image) => some image
  | _ => none

/-- Modelled from the spec: opening a width-table resource. -/
def openYml (store : String → Option ProjFile) (name : String) : Option (List (Nat × Nat)) :=
  match store name with
  | some (.yml widths) => some widths
  | _ => none

/-- Modelled from the spec: §4.3 (`EbFont.from_files` is not under src/):
load the bitmap and width table into the font, keeping its geometry. -/
def EbFont.from_files (f : EbFont) (image : List (List Nat)) (widths : List (Nat × Nat)) :
    EbFont :=
  { f with bitmap := image, widths := widths }

/-- Source lines 72-78: the five default fonts the module is constructed
with (character count 128, the listed tile geometries, empty data). -/
def initFonts : List EbFont :=
  [ ⟨128, 16, 16, [], []⟩,
    ⟨128, 16, 16, [], []⟩,
    ⟨128, 8, 16, [], []⟩,
    ⟨128, 8, 8, [], []⟩,
    ⟨128, 16, 16, [], []⟩ ]

/-- Source lines 130-135: probe one extension-font index: open the numbered
image resource and its `_widths` sibling and load them into a fresh
`EbFont(num_characters=128, tile_width=16, tile_height=16)`; any failure
yields `none` (the loop's `except Exception`). -/
def probeFont (store : String → Option ProjFile) (new_font_index : Nat) : Option EbFont :=
  match openPng store ("Fonts/" ++ toString new_font_index),
        openYml store ("Fonts/" ++ toString new_font_index ++ "_widths") with
  | some image, some widths =>
    some (EbFont.from_files ⟨128, 16, 16, [], []⟩ image widths)
  | _, _ => none

/-- Source lines 129-139, the extension-font discovery loop, fuelled by the
number of remaining indices below `MAX_FONT_INDEX`: each successfully
probed font is appended; the first failure breaks the loop. -/
def read_extra_fonts_loop (store : String → Option ProjFile) :
    Nat → List EbFont → Nat → List EbFont
  | 0, fonts, _ => fonts
  | fuel + 1, fonts, new_font_index =>
    match probeFont store new_font_index with
    | some new_font => read_extra_fonts_loop store fuel (fonts ++ [new_font]) (new_font_index + 1)
    | none => fonts

/-- Source lines 129-139: `for new_font_index in range(5, MAX_FONT_INDEX)`
with break-on-failure, starting from `new_font_index`. -/
def read_extra_fonts (store : String → Option ProjFile) (fonts : List EbFont)
    (new_font_index : Nat) : List EbFont :=
  read_extra_fonts_loop store (MAX_FONT_INDEX - new_font_index) fonts new_font_index

/-- Source lines 123-126: load the base fonts, pairing the module's default
fonts with `FONT_FILENAMES`; a missing or ill-formed base resource is a
fatal error (`none`). -/
def loadBaseLoop (store : String → Option ProjFile) :
    List (EbFont × String) → Option (List EbFont)
  | [] => some []
  | (font, nm) :: rest =>
    match openPng store ("Fonts/" ++ nm), openYml store ("Fonts/" ++ nm ++ "_widths") with
    | some image, some widths =>
      match loadBaseLoop store rest with
      | some fonts => some (font.from_files image widths :: fonts)
      | none => none
    | _, _ => none

/-- Source lines 121-141, `read_from_project` (minus the credits font, which
lives outside the indexable font array): load the five base fonts, then
discover extension fonts starting at index 5. -/
def read_from_project (store : String → Option ProjFile) : Option (List EbFont) :=
  match loadBaseLoop store (initFonts.zip FONT_FILENAMES) with
  | none => none
  | some fonts => some (read_extra_fonts store fonts 5)

/-- Modelled from the spec: §4.3 (`EbFont.to_files` is not under src/): the
exported files hold exactly the bitmap and the width table. -/
def EbFont.to_files (f : EbFont) : ProjFile × ProjFile :=
  (.png f.bitmap, .yml f.widths)

/-- Source lines 143-150: write each font's image and width files under the
resource name `FONT_FILENAMES[i]`; an index beyond that list is a fatal
error (Python raises `IndexError`). -/
def writeProjLoop : List EbFont → Nat → Option (List (String × ProjFile))
  | [], _ => some []
  | font :: rest, i =>
    match FONT_FILENAMES.get? i with
    | none => none
    | some nm =>
      match writeProjLoop rest (i + 1) with
      | none => none
      | some out =>
        some (("Fonts/" ++ nm, (font.to_files).1)
          :: ("Fonts/" ++ nm ++ "_widths", (font.to_files).2) :: out)

/-- Source lines 143-150, `write_to_project` (minus the credits font): the
list of files the pass produces. -/
def write_to_project (fonts : List EbFont) : Option (List (String × ProjFile)) :=
  writeProjLoop fonts 0

/-- A resource store serving exactly a produced file list. -/
def storeOfList (files : List (String × ProjFile)) : String → Option ProjFile :=
  fun name => findResource files name

/-- Source lines 181, spec §4.3: a font's exported image size.  Modelled
from the spec: the strip is `num_characters * tile_width` pixels wide and
`tile_height` pixels tall (`EbFont.image_size` is not under src/). -/
def image_size (f : EbFont) : Nat × Nat := (f.num_characters * f.tile_width, f.tile_height)

/-- Source lines 188-193: build the widened canvas, fill every pixel with
palette index 1 (the blank index), then paste the original image at the
origin; a pixel inside the original bounds keeps its value. -/
def expandImage (new_image_w new_image_h : Nat) (image : List (List Nat)) :
    List (List Nat) :=
  (List.range new_image_h).map (fun y =>
    (List.range new_image_w).map (fun x =>
      match (image.getD y []).get? x with
      | some p => p
      | none => 1))

/-- Source lines 203-205: `for character_id in range(96, 128): if absent,
set width 0`. -/
def expandWidths (widths_dict : List (Nat × Nat)) : List (Nat × Nat) :=
  (List.range' 96 32).foldl
    (fun acc character_id =>
      if (acc.find? (fun p => p.1 == character_id)).isSome then acc
      else acc ++ [(character_id, 0)])
    widths_dict

/-- Source lines 177-208: the v5→v6 body for one font: read the image
resource, widen it, write it back; read the widths resource, extend it,
write it back.  A missing or ill-typed resource is fatal (`none`). -/
def upgradeFontV5 (font : EbFont) (nm : String) (rs : List (String × ProjFile)) :
    Option (List (String × ProjFile)) :=
  match findResource rs ("Fonts/" ++ nm) with
  | some (.png image) =>
    let expanded := expandImage (image_size font).1 (image_size font).2 image
    let rs1 := writeResource rs ("Fonts/" ++ nm) (.png expanded)
    match findResource rs1 ("Fonts/" ++ nm ++ "_widths") with
    | some (.yml widths_dict) =>
      some (writeResource rs1 ("Fonts/" ++ nm ++ "_widths") (.yml (expandWidths widths_dict)))
    | _ => none
  | _ => none

/-- Source lines 177-208: the v5→v6 loop over `enumerate(self.fonts)`. -/
def applyV5 : List (EbFont × String) → List (String × ProjFile) →
    Option (List (String × ProjFile))
  | [], rs => some rs
  | (font, nm) :: rest, rs =>
    match upgradeFontV5 font nm rs with
    | some rs' => applyV5 rest rs'
    | none => none

/-- Modelled from the spec: §4.6 v≤2→v3 (`EbCreditsFont.from_block` /
`to_files` are not under src/): the credits font image synthesized from the
ROM, as written into the project for the first time. -/
def creditsImageFromRom (rom : Rom) : List (List Nat) :=
  [(List.range 16).map (fun k => rom.read (CREDITS_PALETTES_ADDRESS + k))]

/-- Source lines 172-218, `upgrade_project`, with an explicit fuel argument
standing for the available recursion depth (the Python recursion has no
bound; exhausted fuel `none` models a call that never returns).  Branches,
in source order: equal versions return the project unchanged; version 5
widens every font; versions ≤ 2 synthesize the credits font from the ROM;
every other version just advances the counter. -/
def upgrade_project (fonts : List EbFont) :
    Nat → Nat → Nat → Rom → List (String × ProjFile) → Option (List (String × ProjFile))
  | 0, _, _, _, _ => none
  | fuel + 1, old_version, new_version, rom, project =>
    if old_version == new_version then
      some project
    else if old_version == 5 then
      match applyV5 (fonts.zip FONT_FILENAMES) project with
      | some project2 => upgrade_project fonts fuel 6 new_version rom project2
      | none => none
    else if old_version ≤ 2 then
      upgrade_project fonts fuel 3 new_version rom
        (writeResource project ("Fonts/credits") (ProjFile.png (creditsImageFromRom rom)))
    else
      upgrade_project fonts fuel (old_version + 1) new_version rom project

/-- Termination of the migration walk from `old_version` to `new_version`:
some recursion depth suffices for the walk to return. -/
def UpgradeTerminates (fonts : List EbFont) (old_version new_version : Nat)
    (rom : Rom) (project : List (String × ProjFile)) : Prop :=
  ∃ fuel, (upgrade_project fonts fuel old_version new_version rom project).isSome

/-- A byte address lies inside one of the listed (inclusive) ranges. -/
def inRanges (l : List (Nat × Nat)) (b : Nat) : Prop :=
  ∃ r ∈ l, r.1 ≤ b ∧ b ≤ r.2

/-- The listed ranges are pairwise disjoint intervals. -/
def RangesPD (l : List (Nat × Nat)) : Prop :=
  l.Pairwise (fun r s => r.2 < s.1 ∨ s.2 < r.1)

/-- The 3-byte patch sites of the listed references are pairwise disjoint. -/
def RefSitesDisjoint (refs : List PointerReference) : Prop :=
  refs.Pairwise (fun p q => p.site + 3 ≤ q.site ∨ q.site + 3 ≤ p.site)

/-- The write-log entries `Rom.writeBytes` prepends (newest first). -/
def writeLog : Nat → List Nat → List (Nat × Nat)
  | _, [] => []
  | a, b :: bs => writeLog (a + 1) bs ++ [(a, b % 256)]

/-- Placeholder font used as a `getD` default in statements. -/
def defaultFont : EbFont := ⟨0, 0, 0, [], []⟩

/-- An indexed-image resource is stored under `name`. -/
def PngAt (rs : List (String × ProjFile)) (name : String) : Prop :=
  ∃ image, findResource rs name = some (.png image)

/-- A width-table resource is stored under `name`. -/
def YmlAt (rs : List (String × ProjFile)) (name : String) : Prop :=
  ∃ widths, findResource rs name = some (.yml widths)

/-- All ten base font resources are present with their expected kinds. -/
def BasePresent (rs : List (String × ProjFile)) : Prop :=
  ∀ nm ∈ FONT_FILENAMES,
    PngAt rs ("Fonts/" ++ nm) ∧ YmlAt rs ("Fonts/" ++ nm ++ "_widths")

/-- Concrete font used by the write-pass witnesses. -/
def wFont1 : EbFont := ⟨2, 2, 2, [[1, 2, 3, 4], [4, 3, 2, 1]], [(0, 5)]⟩

/-- Concrete font used by the write-pass witnesses. -/
def wFont2 : EbFont := ⟨2, 2, 2, [[5, 6, 7, 8], [8, 7, 6, 5]], [(1, 7)]⟩

/-- Concrete font set used by the write-pass witnesses. -/
def wFonts : List EbFont := [wFont1, wFont2]

/-- Concrete credits font used by the write-pass witnesses. -/
def wCredits : EbCreditsFont := ⟨[9, 10], [11, 12]⟩

/-- Concrete one-row starting table used by the write-pass witnesses. -/
def wTbl : EbTable := ⟨1, []⟩

/-- Concrete blank ROM with the module's free ranges. -/
def wRom : Rom := ⟨[], FREE_RANGES⟩

/-- Result of the first concrete write pass. -/
def wOut1 : EbTable × Rom × Nat :=
  (write_to_rom wFonts wCredits wTbl wRom).getD (⟨0, []⟩, ⟨[], []⟩, 0)

/-- The first pass's ROM with the allocator reset to the original ranges. -/
def wRom2 : Rom := { wOut1.2.1 with freeRanges := wRom.freeRanges }

/-- Result of the second concrete write pass. -/
def wOut2 : EbTable × Rom × Nat :=
  (write_to_rom wFonts wCredits wOut1.1 wRom2).getD (⟨0, []⟩, ⟨[], []⟩, 0)

/-- Concrete project store with exactly one extension font at index 5. -/
def storeG6 : String → Option ProjFile := fun name =>
  if name == "Fonts/5" then some (.png [[1]])
  else if name == "Fonts/5_widths" then some (.yml [(0, 3)])
  else none

/-- Concrete project store whose index-6 resources are present but of the
wrong kind (a corrupt resource), after a good font at index 5. -/
def storeG6corrupt : String → Option ProjFile := fun name =>
  if name == "Fonts/5" then some (.png [[1]])
  else if name == "Fonts/5_widths" then some (.yml [(0, 3)])
  else if name == "Fonts/6" then some (.yml [(0, 9)])
  else if name == "Fonts/6_widths" then some (.yml [(0, 9)])
  else none

/-- The font the concrete stores serve at index 5. -/
def fontAt5 : EbFont := ⟨128, 16, 16, [[1]], [(0, 3)]⟩

/-- Concrete project with all ten base font resources, for the migration
witness. -/
def projW : List (String × ProjFile) :=
  [ ("Fonts/0", .png [[1]]), ("Fonts/0_widths", .yml [(0, 1)]),
    ("Fonts/1", .png [[1]]), ("Fonts/1_widths", .yml []),
    ("Fonts/3", .png [[1]]), ("Fonts/3_widths", .yml []),
    ("Fonts/4", .png [[1]]), ("Fonts/4_widths", .yml []),
    ("Fonts/2", .png [[1]]), ("Fonts/2_widths", .yml []) ]

/-- Concrete full project store: all ten base resources plus one extension
font at index 5. -/
def storeFull : String → Option ProjFile :=
  storeOfList (projW ++ [("Fonts/5", ProjFile.png [[1]]), ("Fonts/5_widths", ProjFile.yml [(0, 3)])])

/-- Concrete 96-slot strip image for the migration witness. -/
def wMigImage : List (List Nat) := [List.replicate 96 7]

/-- Concrete width table for the migration witness (the spec's test data). -/
def wMigWidths : List (Nat × Nat) := [(0, 5), (10, 3)]

/-- Concrete font geometry for the migration witness. -/
def wMigFont : EbFont := ⟨128, 1, 1, [], []⟩

/-- Concrete project holding the migration witness's two resources. -/
def wMigProj : List (String × ProjFile) :=
  [("Fonts/9", ProjFile.png wMigImage), ("Fonts/9_widths", ProjFile.yml wMigWidths)]

/-! Generic list lemmas used throughout. -/

theorem getD_set_self {α : Type} : ∀ (l : List α) (i : Nat) (v d : α), i < l.length →
    (l.set i v).getD i d = v
  | [], i, v, d, h => absurd h (by simp)
  | a :: l, 0, v, d, _ => rfl
  | a :: l, i + 1, v, d, h => getD_set_self l i v d (by simpa using h)

theorem getD_set_of_ne {α : Type} : ∀ (l : List α) (i j : Nat) (v d : α), i ≠ j →
    (l.set i v).getD j d = l.getD j d
  | [], _, _, _, _, _ => by simp
  | a :: l, 0, 0, v, d, h => absurd rfl h
  | a :: l, 0, j + 1, v, d, h => rfl
  | a :: l, i + 1, 0, v, d, h => rfl
  | a :: l, i + 1, j + 1, v, d, h =>
    getD_set_of_ne l i j v d (fun e => h (by rw [e]))

theorem getD_replicate_lt {α : Type} : ∀ (n k : Nat) (a d : α), k < n →
    (List.replicate n a).getD k d = a
  | 0, k, a, d, h => absurd h (by simp)
  | n + 1, 0, a, d, _ => rfl
  | n + 1, k + 1, a, d, h => getD_replicate_lt n k a d (by omega)

theorem getD_map_range {α : Type} (f : Nat → α) (n y : Nat) (d : α) (h : y < n) :
    ((List.range n).map f).getD y d = f y := by
  rw [List.getD_eq_getElem?_getD, List.getElem?_map, List.getElem?_range h]
  rfl

theorem eq_quad_of_length (r : List Nat) (h : r.length = 4) :
    ∃ x0 x1 x2 x3, r = [x0, x1, x2, x3] := by
  cases r with
  | nil => simp at h
  | cons a r =>
    cases r with
    | nil => simp at h
    | cons b r =>
      cases r with
      | nil => simp at h
      | cons c r =>
        cases r with
        | nil => simp at h
        | cons d r =>
          cases r with
          | nil => exact ⟨a, b, c, d, rfl⟩
          | cons e r => simp at h

theorem take_eq_of_getD {α : Type} (d : α) :
    ∀ (n : Nat) (l₁ l₂ : List α), n ≤ l₁.length → n ≤ l₂.length →
      (∀ k, k < n → l₁.getD k d = l₂.getD k d) → l₁.take n = l₂.take n
  | 0, l₁, l₂, _, _, _ => by simp
  | n + 1, [], l₂, h₁, _, _ => by simp at h₁
  | n + 1, a :: l₁, [], _, h₂, _ => by simp at h₂
  | n + 1, a :: l₁, b :: l₂, h₁, h₂, h => by
    have hab : a = b := h 0 (by omega)
    have := take_eq_of_getD d n l₁ l₂ (by simpa using h₁) (by simpa using h₂)
      (fun k hk => h (k + 1) (by omega))
    simp [hab, this]

/-! ROM buffer read/write lemmas. -/

theorem read_writeByte_self (rom : Rom) (a v : Nat) :
    (rom.writeByte a v).read a = v % 256 := by
  simp [Rom.read, Rom.writeByte, List.find?]

theorem read_writeByte_of_ne (rom : Rom) (a v x : Nat) (h : x ≠ a) :
    (rom.writeByte a v).read x = rom.read x := by
  have hb : (a == x) = false := by simp [Ne.symm h]
  simp [Rom.read, Rom.writeByte, List.find?, hb]

theorem writeBytes_freeRanges : ∀ (bs : List Nat) (rom : Rom) (a : Nat),
    (rom.writeBytes a bs).freeRanges = rom.freeRanges
  | [], _, _ => rfl
  | b :: bs, rom, a => writeBytes_freeRanges bs (rom.writeByte a b) (a + 1)

theorem read_writeBytes_of_ne : ∀ (bs : List Nat) (rom : Rom) (a x : Nat),
    (∀ k, k < bs.length → x ≠ a + k) → (rom.writeBytes a bs).read x = rom.read x
  | [], rom, a, x, _ => rfl
  | b :: bs, rom, a, x, h => by
    show (Rom.writeBytes _ (a + 1) bs).read x = _
    rw [read_writeBytes_of_ne bs _ (a + 1) x (fun k hk => by
      have := h (k + 1) (by simpa using hk)
      omega)]
    exact read_writeByte_of_ne rom a b x (by
      have := h 0 (by simp)
      omega)

theorem read_writeBytes_getD : ∀ (bs : List Nat) (rom : Rom) (a k : Nat), k < bs.length →
    (rom.writeBytes a bs).read (a + k) = bs.getD k 0 % 256
  | [], _, _, k, h => absurd h (by simp)
  | b :: bs, rom, a, 0, _ => by
    show (Rom.writeBytes _ (a + 1) bs).read (a + 0) = b % 256
    rw [read_writeBytes_of_ne bs _ (a + 1) (a + 0) (fun k hk => by omega)]
    simpa using read_writeByte_self rom a b
  | b :: bs, rom, a, k + 1, h => by
    show (Rom.writeBytes _ (a + 1) bs).read (a + (k + 1)) = _
    have : a + (k + 1) = (a + 1) + k := by omega
    rw [this, read_writeBytes_getD bs _ (a + 1) k (by simpa using h)]
    rfl

theorem writeBytes_mem : ∀ (bs : List Nat) (rom : Rom) (a : Nat),
    (rom.writeBytes a bs).mem = writeLog a bs ++ rom.mem
  | [], _, _ => rfl
  | b :: bs, rom, a => by
    show (Rom.writeBytes _ (a + 1) bs).mem = _
    rw [writeBytes_mem bs (rom.writeByte a b) (a + 1)]
    simp [Rom.writeByte, writeLog]

/-! Allocator lemmas. -/

theorem allocateAux_sub : ∀ (l : List (Nat × Nat)) (size off : Nat) (l' : List (Nat × Nat)),
    allocateAux l size = some (off, l') →
    ∀ r' ∈ l', ∃ r ∈ l, r.1 ≤ r'.1 ∧ r'.2 ≤ r.2 := by
  intro l
  induction l with
  | nil => intro size off l' h; simp [allocateAux] at h
  | cons q rest ih =>
    intro size off l' h r' hr'
    obtain ⟨lo, hi⟩ := q
    simp only [allocateAux] at h
    by_cases hc : size ≤ hi + 1 - lo
    · rw [if_pos hc] at h
      obtain ⟨rfl, rfl⟩ := Prod.mk.injEq .. ▸ (Option.some.injEq .. ▸ h :)
      by_cases hfit : lo + size ≤ hi
      · rw [if_pos hfit] at hr'
        rcases List.mem_cons.mp hr' with rfl | hmem
        · exact ⟨(lo, hi), List.mem_cons_self .., by omega, by omega⟩
        · exact ⟨r', List.mem_cons_of_mem _ hmem, le_rfl, le_rfl⟩
      · rw [if_neg hfit] at hr'
        exact ⟨r', List.mem_cons_of_mem _ hr', le_rfl, le_rfl⟩
    · rw [if_neg hc] at h
      cases hrec : allocateAux rest size with
      | none => rw [hrec] at h; exact absurd h (by simp)
      | some pr =>
        obtain ⟨off', rest'⟩ := pr
        rw [hrec] at h
        obtain ⟨rfl, rfl⟩ := Prod.mk.injEq .. ▸ (Option.some.injEq .. ▸ h :)
        rcases List.mem_cons.mp hr' with rfl | hmem
        · exact ⟨(lo, hi), List.mem_cons_self .., le_rfl, le_rfl⟩
        · obtain ⟨r, hr, h1, h2⟩ := ih size off' rest' hrec r' hmem
          exact ⟨r, List.mem_cons_of_mem _ hr, h1, h2⟩

theorem allocateAux_block : ∀ (l : List (Nat × Nat)) (size off : Nat) (l' : List (Nat × Nat)),
    allocateAux l size = some (off, l') →
    ∀ k, k < size → inRanges l (off + k) := by
  intro l
  induction l with
  | nil => intro size off l' h; simp [allocateAux] at h
  | cons q rest ih =>
    intro size off l' h k hk
    obtain ⟨lo, hi⟩ := q
    simp only [allocateAux] at h
    by_cases hc : size ≤ hi + 1 - lo
    · rw [if_pos hc] at h
      obtain ⟨rfl, rfl⟩ := Prod.mk.injEq .. ▸ (Option.some.injEq .. ▸ h :)
      exact ⟨(lo, hi), List.mem_cons_self .., by omega, by omega⟩
    · rw [if_neg hc] at h
      cases hrec : allocateAux rest size with
      | none => rw [hrec] at h; exact absurd h (by simp)
      | some pr =>
        obtain ⟨off', rest'⟩ := pr
        rw [hrec] at h
        obtain ⟨rfl, rfl⟩ := Prod.mk.injEq .. ▸ (Option.some.injEq .. ▸ h :)
        obtain ⟨r, hr, h1, h2⟩ := ih size off' rest' hrec k hk
        exact ⟨r, List.mem_cons_of_mem _ hr, h1, h2⟩

theorem allocateAux_pd : ∀ (l : List (Nat × Nat)) (size off : Nat) (l' : List (Nat × Nat)),
    allocateAux l size = some (off, l') → RangesPD l → RangesPD l' := by
  intro l
  induction l with
  | nil => intro size off l' h; simp [allocateAux] at h
  | cons q rest ih =>
    intro size off l' h hpd
    obtain ⟨lo, hi⟩ := q
    obtain ⟨hhead, htail⟩ := List.pairwise_cons.mp hpd
    simp only [allocateAux] at h
    by_cases hc : size ≤ hi + 1 - lo
    · rw [if_pos hc] at h
      obtain ⟨rfl, rfl⟩ := Prod.mk.injEq .. ▸ (Option.some.injEq .. ▸ h :)
      by_cases hfit : lo + size ≤ hi
      · rw [if_pos hfit]
        exact List.pairwise_cons.mpr ⟨fun s hs => by
          rcases hhead s hs with h1 | h1
          · exact Or.inl (by omega)
          · exact Or.inr (by omega), htail⟩
      · rw [if_neg hfit]; exact htail
    · rw [if_neg hc] at h
      cases hrec : allocateAux rest size with
      | none => rw [hrec] at h; exact absurd h (by simp)
      | some pr =>
        obtain ⟨off', rest'⟩ := pr
        rw [hrec] at h
        obtain ⟨rfl, rfl⟩ := Prod.mk.injEq .. ▸ (Option.some.injEq .. ▸ h :)
        refine List.pairwise_cons.mpr ⟨fun s' hs' => ?_, ih size off' rest' hrec htail⟩
        obtain ⟨s, hs, h1, h2⟩ := allocateAux_sub rest size off' rest' hrec s' hs'
        rcases hhead s hs with h3 | h3
        · exact Or.inl (by omega)
        · exact Or.inr (by omega)

theorem allocateAux_fresh : ∀ (l : List (Nat × Nat)) (size off : Nat) (l' : List (Nat × Nat)),
    allocateAux l size = some (off, l') → RangesPD l →
    ∀ k, k < size → ¬ inRanges l' (off + k) := by
  intro l
  induction l with
  | nil => intro size off l' h; simp [allocateAux] at h
  | cons q rest ih =>
    intro size off l' h hpd k hk hin
    obtain ⟨lo, hi⟩ := q
    obtain ⟨hhead, htail⟩ := List.pairwise_cons.mp hpd
    simp only [allocateAux] at h
    by_cases hc : size ≤ hi + 1 - lo
    · rw [if_pos hc] at h
      obtain ⟨rfl, rfl⟩ := Prod.mk.injEq .. ▸ (Option.some.injEq .. ▸ h :)
      by_cases hfit : lo + size ≤ hi
      · rw [if_pos hfit] at hin
        obtain ⟨r, hr, h1, h2⟩ := hin
        rcases List.mem_cons.mp hr with rfl | hmem
        · simp at h1 h2; omega
        · rcases hhead r hmem with h3 | h3 <;> omega
      · rw [if_neg hfit] at hin
        obtain ⟨r, hr, h1, h2⟩ := hin
        rcases hhead r hr with h3 | h3 <;> omega
    · rw [if_neg hc] at h
      cases hrec : allocateAux rest size with
      | none => rw [hrec] at h; exact absurd h (by simp)
      | some pr =>
        obtain ⟨off', rest'⟩ := pr
        rw [hrec] at h
        obtain ⟨rfl, rfl⟩ := Prod.mk.injEq .. ▸ (Option.some.injEq .. ▸ h :)
        obtain ⟨r, hr, h1, h2⟩ := hin
        rcases List.mem_cons.mp hr with rfl | hmem
        · obtain ⟨s, hs, h3, h4⟩ := allocateAux_block rest size off' rest' hrec k hk
          rcases hhead s hs with h5 | h5 <;> simp at h1 h2 <;> omega
        · exact ih size off' rest' hrec htail k hk ⟨r, hmem, h1, h2⟩

theorem allocate_spec (rom : Rom) (size off : Nat) (rom' : Rom)
    (h : rom.allocate size = some (off, rom')) :
    rom'.mem = rom.mem ∧
    (∀ b, inRanges rom'.freeRanges b → inRanges rom.freeRanges b) ∧
    (∀ k, k < size → inRanges rom.freeRanges (off + k)) ∧
    (RangesPD rom.freeRanges → RangesPD rom'.freeRanges ∧
      ∀ k, k < size → ¬ inRanges rom'.freeRanges (off + k)) := by
  unfold Rom.allocate at h
  cases hrec : allocateAux rom.freeRanges size with
  | none => rw [hrec] at h; exact absurd h (by simp)
  | some pr =>
    obtain ⟨off', ranges⟩ := pr
    rw [hrec] at h
    obtain ⟨rfl, rfl⟩ := Prod.mk.injEq .. ▸ (Option.some.injEq .. ▸ h :)
    refine ⟨rfl, ?_, ?_, ?_⟩
    · intro b hb
      obtain ⟨r', hr', h1, h2⟩ := hb
      obtain ⟨r, hr, h3, h4⟩ := allocateAux_sub _ _ _ _ hrec r' hr'
      exact ⟨r, hr, by omega, by omega⟩
    · exact allocateAux_block _ _ _ _ hrec
    · intro hpd
      exact ⟨allocateAux_pd _ _ _ _ hrec hpd, allocateAux_fresh _ _ _ _ hrec hpd⟩

/-! Pointer-reference patching lemmas. -/

theorem le3_length (v : Nat) : (le3 v).length = 3 := rfl

theorem le3_readback (v : Nat) (h : v < 0x1000000) :
    v % 256 + 256 * (v / 256 % 256) + 65536 * (v / 65536 % 256) = v := by
  have h1 : v / 65536 = v / 256 / 256 := by
    rw [Nat.div_div_eq_div_mul]
  rw [h1]
  omega

theorem write_freeRanges (r : PointerReference) (rom : Rom) (v : Nat) :
    (r.write rom v).freeRanges = rom.freeRanges :=
  writeBytes_freeRanges _ rom r.site

theorem read_write_of_ne (r : PointerReference) (rom : Rom) (v x : Nat)
    (h : ∀ k, k < 3 → x ≠ r.site + k) : (r.write rom v).read x = rom.read x :=
  read_writeBytes_of_ne _ rom r.site x (by simpa [le3_length] using h)

theorem readPointer_write_self (r : PointerReference) (rom : Rom) (v : Nat) :
    readPointer (r.write rom v) r.site = (v + r.pointer_offset) % 0x1000000 := by
  have hlt : (v + r.pointer_offset) % 0x1000000 < 0x1000000 := Nat.mod_lt _ (by omega)
  unfold PointerReference.write readPointer
  generalize hw : (v + r.pointer_offset) % 0x1000000 = w at *
  have h0 := read_writeBytes_getD (le3 w) rom r.site 0 (by simp [le3_length])
  have h1 := read_writeBytes_getD (le3 w) rom r.site 1 (by simp [le3_length])
  have h2 := read_writeBytes_getD (le3 w) rom r.site 2 (by simp [le3_length])
  rw [Nat.add_zero] at h0
  have e0 : (le3 w).getD 0 0 = w % 256 := rfl
  have e1 : (le3 w).getD 1 0 = w / 256 % 256 := rfl
  have e2 : (le3 w).getD 2 0 = w / 65536 % 256 := rfl
  rw [e0] at h0
  rw [e1] at h1
  rw [e2] at h2
  rw [h0, h1, h2]
  have h3 : w / 65536 = w / 256 / 256 := by rw [Nat.div_div_eq_div_mul]
  rw [h3]
  omega

theorem foldl_write_freeRanges : ∀ (refs : List PointerReference) (rom : Rom) (v : Nat),
    (refs.foldl (fun block pointer => pointer.write block v) rom).freeRanges = rom.freeRanges
  | [], _, _ => rfl
  | r :: rest, rom, v => by
    show (rest.foldl _ (r.write rom v)).freeRanges = _
    rw [foldl_write_freeRanges rest (r.write rom v) v, write_freeRanges]

theorem foldl_write_read_of_ne : ∀ (refs : List PointerReference) (rom : Rom) (v x : Nat),
    (∀ r ∈ refs, ∀ k, k < 3 → x ≠ r.site + k) →
    (refs.foldl (fun block pointer => pointer.write block v) rom).read x = rom.read x
  | [], _, _, _, _ => rfl
  | r :: rest, rom, v, x, h => by
    show (rest.foldl _ (r.write rom v)).read x = _
    rw [foldl_write_read_of_ne rest (r.write rom v) v x
      (fun q hq => h q (List.mem_cons_of_mem _ hq))]
    exact read_write_of_ne r rom v x (h r (List.mem_cons_self ..))

theorem foldl_write_mem : ∀ (refs : List PointerReference) (v : Nat),
    ∃ log, ∀ rom : Rom,
      (refs.foldl (fun block pointer => pointer.write block v) rom).mem = log ++ rom.mem
  | [], _ => ⟨[], fun _ => rfl⟩
  | r :: rest, v => by
    obtain ⟨log, hlog⟩ := foldl_write_mem rest v
    refine ⟨log ++ writeLog r.site (le3 ((v + r.pointer_offset) % 0x1000000)), fun rom => ?_⟩
    show (rest.foldl _ (r.write rom v)).mem = _
    rw [hlog (r.write rom v)]
    unfold PointerReference.write
    rw [writeBytes_mem]
    simp [List.append_assoc]

theorem foldl_write_readPointer : ∀ (refs : List PointerReference) (rom : Rom) (v : Nat),
    RefSitesDisjoint refs → ∀ r ∈ refs,
      readPointer (refs.foldl (fun block pointer => pointer.write block v) rom) r.site
        = (v + r.pointer_offset) % 0x1000000 := by
  intro refs
  induction refs with
  | nil => intro rom v _ r hr; simp at hr
  | cons p rest ih =>
    intro rom v hd r hr
    obtain ⟨hhead, htail⟩ := List.pairwise_cons.mp hd
    rcases List.mem_cons.mp hr with rfl | hmem
    · show readPointer (rest.foldl _ (r.write rom v)) r.site = _
      unfold readPointer
      rw [foldl_write_read_of_ne rest _ v r.site (fun q hq k hk => by
          rcases hhead q hq with h1 | h1 <;> omega),
        foldl_write_read_of_ne rest _ v (r.site + 1) (fun q hq k hk => by
          rcases hhead q hq with h1 | h1 <;> omega),
        foldl_write_read_of_ne rest _ v (r.site + 2) (fun q hq k hk => by
          rcases hhead q hq with h1 | h1 <;> omega)]
      exact readPointer_write_self r rom v
    · exact ih (p.write rom v) v htail r hmem

/-! Table shape lemmas. -/

theorem from_block_values_length (t : EbTable) (rom : Rom) (off : Nat) :
    (t.from_block rom off).values.length = t.num_rows := by
  simp [EbTable.from_block]

theorem from_block_row_length (t : EbTable) (rom : Rom) (off : Nat) (j : Nat)
    (h : j < t.num_rows) :
    (((t.from_block rom off)).values.getD j []).length = 4 := by
  unfold EbTable.from_block
  rw [getD_map_range _ _ _ _ h]
  rfl

theorem padRows_length (vs : List (List Nat)) (n : Nat) :
    (padRows vs n).length = vs.length + (n - vs.length) := by
  simp [padRows]

theorem padRows_getD_left (vs : List (List Nat)) (n j : Nat) (h : j < vs.length) :
    (padRows vs n).getD j [] = vs.getD j [] := by
  unfold padRows
  exact List.getD_append _ _ _ _ h

theorem padRows_getD_right (vs : List (List Nat)) (n j : Nat)
    (h1 : vs.length ≤ j) (h2 : j < n) :
    (padRows vs n).getD j [] = [0, 0, 0, 0] := by
  unfold padRows
  rw [List.getD_eq_getElem?_getD, List.getElem?_append_right h1,
    ← List.getD_eq_getElem?_getD]
  exact getD_replicate_lt _ _ _ _ (by omega)

theorem padRows_row_length (vs : List (List Nat)) (n j : Nat)
    (hvs : ∀ j, j < vs.length → (vs.getD j []).length = 4)
    (hj : j < vs.length + (n - vs.length)) :
    ((padRows vs n).getD j []).length = 4 := by
  by_cases h : j < vs.length
  · rw [padRows_getD_left vs n j h]
    exact hvs j h
  · rw [padRows_getD_right vs n j (by omega) (by omega)]
    rfl

theorem serializeRow_length (r : List Nat) : (serializeRow r).length = 12 := rfl

theorem flatten_map_serializeRow_length : ∀ l : List (List Nat),
    ((l.map serializeRow).flatten).length = 12 * l.length
  | [] => rfl
  | r :: l => by
    simp only [List.map_cons, List.flatten_cons, List.length_append,
      flatten_map_serializeRow_length l, serializeRow_length, List.length_cons]
    omega

theorem tableBytes_length (t : EbTable) (h : t.num_rows ≤ t.values.length) :
    (tableBytes t).length = 12 * t.num_rows := by
  unfold tableBytes
  rw [flatten_map_serializeRow_length, List.length_take]
  omega

theorem setFields_values (t : EbTable) (i : Nat) (a b c d : Nat)
    (hlen : i < t.values.length) (h4 : (t.values.getD i []).length = 4) :
    ((((t.setField i 0 a).setField i 1 b).setField i 2 c).setField i 3 d).values
      = t.values.set i [a, b, c, d] := by
  obtain ⟨x0, x1, x2, x3, hx⟩ := eq_quad_of_length _ h4
  simp only [EbTable.setField]
  rw [getD_set_self _ _ _ _ (by simpa using hlen), List.set_set]
  rw [getD_set_self _ _ _ _ (by simpa using hlen), List.set_set]
  rw [getD_set_self _ _ _ _ (by simpa using hlen), List.set_set]
  rw [hx]
  rfl

theorem setFields_num_rows (t : EbTable) (i : Nat) (a b c d : Nat) :
    ((((t.setField i 0 a).setField i 1 b).setField i 2 c).setField i 3 d).num_rows
      = t.num_rows := rfl

/-! Per-font encoding lemmas. -/

theorem to_block_ranges (f : EbFont) (rom : Rom) (g w : Nat) (rom' : Rom)
    (h : f.to_block rom = some (g, w, rom')) :
    (∀ b, inRanges rom'.freeRanges b → inRanges rom.freeRanges b) ∧
    (RangesPD rom.freeRanges → RangesPD rom'.freeRanges) := by
  unfold EbFont.to_block at h
  cases h1 : rom.allocate f.tilesetBytes.length with
  | none => rw [h1] at h; exact absurd h (by simp)
  | some pr1 =>
    obtain ⟨g1, rom1⟩ := pr1
    rw [h1] at h
    simp only at h
    cases h2 : (rom1.writeBytes g1 f.tilesetBytes).allocate f.widthsBytes.length with
    | none => rw [h2] at h; exact absurd h (by simp)
    | some pr2 =>
      obtain ⟨w1, rom3⟩ := pr2
      rw [h2] at h
      simp only [Option.some.injEq, Prod.mk.injEq] at h
      obtain ⟨rfl, rfl, rfl⟩ := h
      obtain ⟨hm1, hsub1, hblk1, hpd1⟩ := allocate_spec _ _ _ _ h1
      obtain ⟨hm2, hsub2, hblk2, hpd2⟩ := allocate_spec _ _ _ _ h2
      constructor
      · intro b hb
        rw [writeBytes_freeRanges] at hb
        have hb2 := hsub2 b hb
        rw [writeBytes_freeRanges] at hb2
        exact hsub1 b hb2
      · intro hpd
        have ha := (hpd1 hpd).1
        rw [writeBytes_freeRanges]
        have : RangesPD (rom1.writeBytes g1 f.tilesetBytes).freeRanges := by
          rw [writeBytes_freeRanges]; exact ha
        exact (hpd2 this).1

theorem writeFontsLoop_spec :
    ∀ (fs : List EbFont) (i : Nat) (t : EbTable) (rom : Rom) (t' : EbTable) (rom' : Rom),
      writeFontsLoop fs i t rom = some (t', rom') →
      i + fs.length ≤ t.values.length →
      (∀ j, i ≤ j → j < i + fs.length → (t.values.getD j []).length = 4) →
      t'.num_rows = t.num_rows ∧
      t'.values.length = t.values.length ∧
      (∀ j, j < i ∨ i + fs.length ≤ j → t'.values.getD j [] = t.values.getD j []) ∧
      (∀ k, k < fs.length → ∃ graphics_offset widths_offset r r',
        (fs.getD k defaultFont).to_block r = some (graphics_offset, widths_offset, r') ∧
        t'.values.getD (i + k) [] =
          [to_snes_address widths_offset, to_snes_address graphics_offset,
           (fs.getD k defaultFont).tile_height * (fs.getD k defaultFont).tile_width / 8,
           (fs.getD k defaultFont).tile_height]) ∧
      (∀ b, inRanges rom'.freeRanges b → inRanges rom.freeRanges b) ∧
      (RangesPD rom.freeRanges → RangesPD rom'.freeRanges) := by
  intro fs
  induction fs with
  | nil =>
    intro i t rom t' rom' h _ _
    simp only [writeFontsLoop, Option.some.injEq, Prod.mk.injEq] at h
    obtain ⟨rfl, rfl⟩ := h
    exact ⟨rfl, rfl, fun j _ => rfl, fun k hk => by simp at hk,
      fun b hb => hb, fun hpd => hpd⟩
  | cons font rest ih =>
    intro i t rom t' rom' h hlen hrows
    simp only [writeFontsLoop] at h
    cases hb : font.to_block rom with
    | none => rw [hb] at h; exact absurd h (by simp)
    | some pr =>
      obtain ⟨graphics_offset, widths_offset, rom2⟩ := pr
      rw [hb] at h
      simp only at h
      set td := (((t.setField i 0 (to_snes_address widths_offset)).setField i 1
        (to_snes_address graphics_offset)).setField i 2
        (font.tile_height * font.tile_width / 8)).setField i 3 font.tile_height with htd
      have hiv : i < t.values.length := by
        simp only [List.length_cons] at hlen; omega
      have hrow4 : (t.values.getD i []).length = 4 :=
        hrows i le_rfl (by simp)
      have hvals : td.values = t.values.set i
          [to_snes_address widths_offset, to_snes_address graphics_offset,
           font.tile_height * font.tile_width / 8, font.tile_height] :=
        setFields_values t i _ _ _ _ hiv hrow4
      have hdlen : td.values.length = t.values.length := by
        rw [hvals, List.length_set]
      have hdrow : ∀ j, j ≠ i → td.values.getD j [] = t.values.getD j [] := by
        intro j hj
        rw [hvals]
        exact getD_set_of_ne _ _ _ _ _ (fun e => hj e.symm)
      have hdi : td.values.getD i [] =
          [to_snes_address widths_offset, to_snes_address graphics_offset,
           font.tile_height * font.tile_width / 8, font.tile_height] := by
        rw [hvals]
        exact getD_set_self _ _ _ _ hiv
      obtain ⟨hn, hl, hu, hrowsOut, hsub, hpd⟩ := ih (i + 1) td rom2 t' rom' h
        (by rw [hdlen]; simp only [List.length_cons] at hlen; omega)
        (by
          intro j hj1 hj2
          rw [hdrow j (by omega)]
          exact hrows j (by omega) (by simp only [List.length_cons]; omega))
      obtain ⟨hsubB, hpdB⟩ := to_block_ranges font rom _ _ _ hb
      refine ⟨by rw [hn, htd, setFields_num_rows], by rw [hl, hdlen], ?_, ?_, ?_, ?_⟩
      · intro j hj
        have hlc : (font :: rest).length = rest.length + 1 := by
          simp
        rw [hlc] at hj
        have hj1 : j < i + 1 ∨ i + 1 + rest.length ≤ j := by omega
        have hj2 : j ≠ i := by omega
        rw [hu j hj1, hdrow j hj2]
      · intro k hk
        cases k with
        | zero =>
          refine ⟨graphics_offset, widths_offset, rom, rom2, hb, ?_⟩
          rw [Nat.add_zero, hu i (by omega), hdi]
          simp
        | succ k =>
          obtain ⟨g2, w2, r2, r2', hb2, hrow2⟩ := hrowsOut k
            (by simp only [List.length_cons] at hk; omega)
          refine ⟨g2, w2, r2, r2', hb2, ?_⟩
          have : i + (k + 1) = (i + 1) + k := by omega
          rw [this, hrow2]
          simp
      · exact fun b hbb => hsubB b (hsub b hbb)
      · exact fun hp => hpd (hpdB hp)

/-! Decomposition of a successful write pass into its stages. -/

theorem write_to_rom_stages (fonts : List EbFont) (credits_font : EbCreditsFont)
    (font_pointer_table : EbTable) (rom : Rom) (t2 : EbTable) (rom' : Rom) (noff : Nat)
    (hw : write_to_rom fonts credits_font font_pointer_table rom = some (t2, rom', noff)) :
    ∃ rom1 rom2 : Rom,
      writeFontsLoop fonts 0
        ⟨fonts.length, padRows ((font_pointer_table.from_block rom
           (from_snes_address FONT_POINTER_TABLE_OFFSET))).values fonts.length⟩ rom
        = some (t2, rom1) ∧
      rom1.allocate (fonts.length * FONT_POINTER_TABLE_ENTRY_SIZE) = some (noff, rom2) ∧
      credits_font.to_block
        (t2.to_block
          (FONT_POINTER_TABLE_REFERENCES.foldl
            (fun block pointer => pointer.write block (to_snes_address noff)) rom2)
          noff)
        CREDITS_GRAPHICS_ASM_POINTER CREDITS_PALETTES_ADDRESS = some rom' := by
  simp only [write_to_rom] at hw
  split at hw
  · exact absurd hw (by simp)
  · next t2x rom1 heq =>
    split at hw
    · exact absurd hw (by simp)
    · next noverr rom2 halloc =>
      split at hw
      · exact absurd hw (by simp)
      · next rom5 hcred =>
        simp only [Option.some.injEq, Prod.mk.injEq] at hw
        obtain ⟨rfl, rfl, rfl⟩ := hw
        exact ⟨rom1, rom2, heq, halloc, hcred⟩

/-- C7: after a write pass, pointer table row `i` holds exactly four logical
fields for font `i`, in order: index 0 the widths-table address in banked
form, index 1 the tileset address in banked form, index 2 the derived
bytes-per-tile-row value `tile_height * tile_width / 8`, and index 3
`tile_height`; the two addresses are offsets returned by that font's
`to_block` encoding step. -/
theorem write_to_rom_row_fields (fonts : List EbFont) (credits_font : EbCreditsFont)
    (font_pointer_table : EbTable) (rom : Rom) (t2 : EbTable) (rom' : Rom)
    (new_table_offset : Nat) (i : Nat) (fi : EbFont)
    (hw : write_to_rom fonts credits_font font_pointer_table rom
      = some (t2, rom', new_table_offset))
    (hi : fonts.get? i = some fi) :
    ∃ graphics_offset widths_offset r r',
      fi.to_block r = some (graphics_offset, widths_offset, r') ∧
      t2.values.getD i [] =
        [to_snes_address widths_offset, to_snes_address graphics_offset,
         fi.tile_height * fi.tile_width / 8, fi.tile_height] ∧
      (t2.values.getD i []).length = 4 := by
  obtain ⟨rom1, rom2, hloop, halloc, hcred⟩ :=
    write_to_rom_stages fonts credits_font font_pointer_table rom t2 rom' new_table_offset hw
  have hilt : i < fonts.length := by
    obtain ⟨h, _⟩ := List.get?_eq_some.mp hi
    exact h
  have hgd : fonts.getD i defaultFont = fi := by
    rw [List.getD_eq_getElem?_getD, ← List.get?_eq_getElem?, hi]
    rfl
  have hflen := from_block_values_length font_pointer_table rom
    (from_snes_address FONT_POINTER_TABLE_OFFSET)
  have hplen := padRows_length ((font_pointer_table.from_block rom
    (from_snes_address FONT_POINTER_TABLE_OFFSET))).values fonts.length
  obtain ⟨_, _, _, hrows, _, _⟩ := writeFontsLoop_spec fonts 0 _ rom t2 rom1 hloop
    (by simp only [hplen, hflen]; omega)
    (by
      intro j _ hj
      apply padRows_row_length
      · intro j' hj'
        rw [hflen] at hj'
        exact from_block_row_length font_pointer_table rom _ j' hj'
      · rw [hflen]
        simp only [hplen, hflen] at *
        omega)
  obtain ⟨g, w, r, r', hb, hrow⟩ := hrows i hilt
  rw [Nat.zero_add] at hrow
  rw [hgd] at hb hrow
  exact ⟨g, w, r, r', hb, hrow, by rw [hrow]; rfl⟩

/-- C7 witness: the row-field layout at a concrete successful write pass. -/
theorem write_to_rom_row_fields_witness :
    ∃ graphics_offset widths_offset r r',
      wFont2.to_block r = some (graphics_offset, widths_offset, r') ∧
      wOut1.1.values.getD 1 [] =
        [to_snes_address widths_offset, to_snes_address graphics_offset,
         wFont2.tile_height * wFont2.tile_width / 8, wFont2.tile_height] ∧
      (wOut1.1.values.getD 1 []).length = 4 :=
  write_to_rom_row_fields wFonts wCredits wTbl wRom wOut1.1 wOut1.2.1 wOut1.2.2 1 wFont2
    (by rfl) (by rfl)

/-- C3: when the configured fonts outnumber the table's current rows at the
start of a write pass, the pass appends zero-initialized rows `[0,0,0,0]`
(never partially-initialized ones) and produces a table with exactly
`len(fonts)` rows, each row fully populated with its font's final field
values; the serialized table spans exactly `len(fonts)` entries. -/
theorem write_to_rom_grows_table (fonts : List EbFont) (credits_font : EbCreditsFont)
    (font_pointer_table : EbTable) (rom : Rom) (t2 : EbTable) (rom' : Rom)
    (new_table_offset : Nat)
    (hw : write_to_rom fonts credits_font font_pointer_table rom
      = some (t2, rom', new_table_offset))
    (hgrow : font_pointer_table.num_rows < fonts.length) :
    t2.num_rows = fonts.length ∧
    t2.values.length = fonts.length ∧
    (∀ j, font_pointer_table.num_rows ≤ j → j < fonts.length →
      (padRows ((font_pointer_table.from_block rom
        (from_snes_address FONT_POINTER_TABLE_OFFSET))).values fonts.length).getD j []
        = [0, 0, 0, 0]) ∧
    (∀ k, k < fonts.length → ∃ graphics_offset widths_offset r r',
      (fonts.getD k defaultFont).to_block r = some (graphics_offset, widths_offset, r') ∧
      t2.values.getD k [] =
        [to_snes_address widths_offset, to_snes_address graphics_offset,
         (fonts.getD k defaultFont).tile_height * (fonts.getD k defaultFont).tile_width / 8,
         (fonts.getD k defaultFont).tile_height]) ∧
    (tableBytes t2).length = fonts.length * FONT_POINTER_TABLE_ENTRY_SIZE := by
  obtain ⟨rom1, rom2, hloop, halloc, hcred⟩ :=
    write_to_rom_stages fonts credits_font font_pointer_table rom t2 rom' new_table_offset hw
  have hflen := from_block_values_length font_pointer_table rom
    (from_snes_address FONT_POINTER_TABLE_OFFSET)
  have hplen := padRows_length ((font_pointer_table.from_block rom
    (from_snes_address FONT_POINTER_TABLE_OFFSET))).values fonts.length
  obtain ⟨hn, hl, _, hrows, _, _⟩ := writeFontsLoop_spec fonts 0 _ rom t2 rom1 hloop
    (by simp only [hplen, hflen]; omega)
    (by
      intro j _ hj
      apply padRows_row_length
      · intro j' hj'
        rw [hflen] at hj'
        exact from_block_row_length font_pointer_table rom _ j' hj'
      · rw [hflen]
        simp only [hplen, hflen] at *
        omega)
  have hn2 : t2.num_rows = fonts.length := hn
  have hl2 : t2.values.length = fonts.length := by
    rw [hl, hplen, hflen]
    omega
  refine ⟨hn2, hl2, ?_, ?_, ?_⟩
  · intro j h1 h2
    exact padRows_getD_right _ _ _ (by rw [hflen]; omega) h2
  · intro k hk
    obtain ⟨g, w, r, r', hb, hrow⟩ := hrows k hk
    rw [Nat.zero_add] at hrow
    exact ⟨g, w, r, r', hb, hrow⟩
  · rw [tableBytes_length t2 (by omega), hn2, FONT_POINTER_TABLE_ENTRY_SIZE]
    omega

/-- C3 witness: a concrete pass growing a one-row table to two rows. -/
theorem write_to_rom_grows_table_witness :
    wOut1.1.num_rows = wFonts.length ∧
    wOut1.1.values.length = wFonts.length ∧
    (∀ j, wTbl.num_rows ≤ j → j < wFonts.length →
      (padRows ((wTbl.from_block wRom
        (from_snes_address FONT_POINTER_TABLE_OFFSET))).values wFonts.length).getD j []
        = [0, 0, 0, 0]) ∧
    (∀ k, k < wFonts.length → ∃ graphics_offset widths_offset r r',
      (wFonts.getD k defaultFont).to_block r = some (graphics_offset, widths_offset, r') ∧
      wOut1.1.values.getD k [] =
        [to_snes_address widths_offset, to_snes_address graphics_offset,
         (wFonts.getD k defaultFont).tile_height * (wFonts.getD k defaultFont).tile_width / 8,
         (wFonts.getD k defaultFont).tile_height]) ∧
    (tableBytes wOut1.1).length = wFonts.length * FONT_POINTER_TABLE_ENTRY_SIZE :=
  write_to_rom_grows_table wFonts wCredits wTbl wRom wOut1.1 wOut1.2.1 wOut1.2.2
    (by rfl) (by decide)

/-! Concrete configuration facts, checked by evaluation. -/

theorem refs_sites_disjoint : RefSitesDisjoint FONT_POINTER_TABLE_REFERENCES := by
  unfold RefSitesDisjoint
  decide

theorem refs_sites_box : ∀ r ∈ FONT_POINTER_TABLE_REFERENCES,
    r.site + 3 ≤ 0x201359 ∨ 0x21e913 < r.site := by decide

theorem refs_sites_asm : ∀ r ∈ FONT_POINTER_TABLE_REFERENCES,
    r.site + 3 ≤ CREDITS_GRAPHICS_ASM_POINTER ∨
      CREDITS_GRAPHICS_ASM_POINTER + 3 ≤ r.site := by decide

theorem refs_sites_pal : ∀ r ∈ FONT_POINTER_TABLE_REFERENCES,
    r.site + 3 ≤ CREDITS_PALETTES_ADDRESS ∨
      CREDITS_PALETTES_ADDRESS + 0xD000 ≤ r.site := by decide

theorem free_ranges_pd : RangesPD FREE_RANGES := by
  unfold RangesPD
  decide

theorem inRanges_free_box (b : Nat) (h : inRanges FREE_RANGES b) :
    0x201359 ≤ b ∧ b ≤ 0x21e913 := by
  obtain ⟨r, hr, h1, h2⟩ := h
  simp only [FREE_RANGES, List.mem_cons, List.not_mem_nil, or_false] at hr
  rcases hr with rfl | rfl | rfl <;> simp at h1 h2 <;> omega

theorem credits_to_block_stages (f : EbCreditsFont) (rom : Rom) (asmoff paloff : Nat)
    (rom' : Rom) (h : f.to_block rom asmoff paloff = some rom') :
    ∃ g rc1, rom.allocate f.graphics.length = some (g, rc1) ∧
      rom' = ((rc1.writeBytes g f.graphics).writeBytes asmoff
        (le3 (to_snes_address g % 0x1000000))).writeBytes paloff f.palette := by
  simp only [EbCreditsFont.to_block] at h
  split at h
  · exact absurd h (by simp)
  · next g rc1 halloc =>
    simp only [Option.some.injEq] at h
    exact ⟨g, rc1, halloc, h.symm⟩

/-- C1: after any successful write pass starting from the module's free
ranges, every configured pointer reference has been written with the newly
allocated pointer table's banked address plus that reference's declared
patch offset, and the bytes at the relocated table hold the serialization
of the final table rows — i.e. the relocation patch lands strictly after
all per-row field values are final. -/
theorem write_to_rom_patches_references (fonts : List EbFont)
    (credits_font : EbCreditsFont) (font_pointer_table : EbTable) (rom : Rom)
    (t2 : EbTable) (rom' : Rom) (new_table_offset : Nat)
    (hw : write_to_rom fonts credits_font font_pointer_table rom
      = some (t2, rom', new_table_offset))
    (hfr : rom.freeRanges = FREE_RANGES)
    (hpal : credits_font.palette.length ≤ 0xD000) :
    (∀ r ∈ FONT_POINTER_TABLE_REFERENCES,
      readPointer rom' r.site
        = (to_snes_address new_table_offset + r.pointer_offset) % 0x1000000) ∧
    (∀ k, k < (tableBytes t2).length →
      rom'.read (new_table_offset + k) = (tableBytes t2).getD k 0 % 256) := by
  obtain ⟨rom1, rom2, hloop, halloc, hcred⟩ :=
    write_to_rom_stages fonts credits_font font_pointer_table rom t2 rom' new_table_offset hw
  set v := to_snes_address new_table_offset with hv
  set rom3 := FONT_POINTER_TABLE_REFERENCES.foldl
    (fun block pointer => pointer.write block v) rom2 with hrom3
  set rom4 := t2.to_block rom3 new_table_offset with hrom4
  -- shape facts about the final table
  have hflen := from_block_values_length font_pointer_table rom
    (from_snes_address FONT_POINTER_TABLE_OFFSET)
  have hplen := padRows_length ((font_pointer_table.from_block rom
    (from_snes_address FONT_POINTER_TABLE_OFFSET))).values fonts.length
  obtain ⟨hn, hl, _, _, hsub1, hpd1⟩ := writeFontsLoop_spec fonts 0 _ rom t2 rom1 hloop
    (by dsimp only; simp only [hplen, hflen]; omega)
    (by
      intro j _ hj
      dsimp only at hj ⊢
      apply padRows_row_length
      · intro j' hj'
        rw [hflen] at hj'
        exact from_block_row_length font_pointer_table rom _ j' hj'
      · rw [hflen]
        simp only [hplen, hflen] at *
        omega)
  dsimp only at hn hl
  have htlen : (tableBytes t2).length = fonts.length * FONT_POINTER_TABLE_ENTRY_SIZE := by
    rw [tableBytes_length t2 (by rw [hn, hl, hplen, hflen]; omega), hn,
      FONT_POINTER_TABLE_ENTRY_SIZE]
    omega
  -- allocator facts for the relocated table
  obtain ⟨hmem2, hsub2, hblk2, hpdf2⟩ := allocate_spec rom1 _ _ rom2 halloc
  have hpdrom1 : RangesPD rom1.freeRanges := hpd1 (by rw [hfr]; exact free_ranges_pd)
  obtain ⟨hpd2, hfresh2⟩ := hpdf2 hpdrom1
  have hblk_box : ∀ k, k < fonts.length * FONT_POINTER_TABLE_ENTRY_SIZE →
      0x201359 ≤ new_table_offset + k ∧ new_table_offset + k ≤ 0x21e913 := by
    intro k hk
    have h1 := hblk2 k hk
    have h2 := hsub1 _ h1
    rw [hfr] at h2
    exact inRanges_free_box _ h2
  -- free ranges after the reference patches and the table store
  have hfr3 : rom3.freeRanges = rom2.freeRanges := foldl_write_freeRanges _ rom2 v
  have hfr4 : rom4.freeRanges = rom2.freeRanges := by
    rw [hrom4]
    unfold EbTable.to_block
    rw [writeBytes_freeRanges, hfr3]
  -- the credits stage
  obtain ⟨g5, rc1, hcal, hrom'⟩ := credits_to_block_stages credits_font rom4
    CREDITS_GRAPHICS_ASM_POINTER CREDITS_PALETTES_ADDRESS rom' hcred
  obtain ⟨hcmem, hcsub, hcblk, _⟩ := allocate_spec rom4 _ _ rc1 hcal
  have hg5_box : ∀ k, k < credits_font.graphics.length →
      0x201359 ≤ g5 + k ∧ g5 + k ≤ 0x21e913 := by
    intro k hk
    have h1 := hcblk k hk
    rw [hfr4] at h1
    have h2 := hsub1 _ (hsub2 _ h1)
    rw [hfr] at h2
    exact inRanges_free_box _ h2
  have hg5_notNew : ∀ k k2, k < credits_font.graphics.length →
      k2 < fonts.length * FONT_POINTER_TABLE_ENTRY_SIZE →
      new_table_offset + k2 ≠ g5 + k := by
    intro k k2 hk hk2 he
    have h1 := hcblk k hk
    rw [hfr4] at h1
    exact hfresh2 k2 hk2 (he ▸ h1)
  -- reads at any address untouched by the credits stage
  have hcred_read : ∀ x,
      (∀ k, k < credits_font.graphics.length → x ≠ g5 + k) →
      (∀ k, k < 3 → x ≠ CREDITS_GRAPHICS_ASM_POINTER + k) →
      (∀ k, k < credits_font.palette.length → x ≠ CREDITS_PALETTES_ADDRESS + k) →
      rom'.read x = rom4.read x := by
    intro x h1 h2 h3
    rw [hrom', read_writeBytes_of_ne _ _ _ _ h3,
      read_writeBytes_of_ne _ _ _ _ (by simpa [le3_length] using h2),
      read_writeBytes_of_ne _ _ _ _ h1]
    have : rc1.read x = rom4.read x := by
      unfold Rom.read
      rw [hcmem]
    exact this
  constructor
  · -- every configured reference reads back the patched value
    intro r hrmem
    have hxbox := refs_sites_box r hrmem
    have hxasm := refs_sites_asm r hrmem
    have hxpal := refs_sites_pal r hrmem
    have hsite : ∀ kc, kc < 3 → rom'.read (r.site + kc) = rom3.read (r.site + kc) := by
      intro kc hkc
      rw [hcred_read (r.site + kc)
        (fun k hk he => by
          have := hg5_box k hk
          omega)
        (fun k hk => by omega)
        (fun k hk => by
          have hple : credits_font.palette.length ≤ 0xD000 := hpal
          omega)]
      rw [hrom4]
      unfold EbTable.to_block
      rw [read_writeBytes_of_ne _ _ _ _ (fun k hk he => by
        rw [htlen] at hk
        have := hblk_box k hk
        omega)]
    have hrp : readPointer rom' r.site = readPointer rom3 r.site := by
      unfold readPointer
      have e0 : rom'.read r.site = rom3.read r.site := by
        simpa using hsite 0 (by omega)
      have e1 := hsite 1 (by omega)
      have e2 := hsite 2 (by omega)
      rw [e0, e1, e2]
    rw [hrp, hrom3]
    exact foldl_write_readPointer FONT_POINTER_TABLE_REFERENCES rom2 v
      refs_sites_disjoint r hrmem
  · -- the relocated table holds the serialization of the final rows
    intro k hk
    have hx : rom'.read (new_table_offset + k) = rom4.read (new_table_offset + k) := by
      apply hcred_read
      · intro k2 hk2
        exact hg5_notNew k2 k hk2 (by rw [← htlen]; exact hk)
      · intro k2 hk2 he
        have := hblk_box k (by rw [← htlen]; exact hk)
        have hc : CREDITS_GRAPHICS_ASM_POINTER = 0x4f1a7 := rfl
        omega
      · intro k2 hk2 he
        have := hblk_box k (by rw [← htlen]; exact hk)
        have hc : CREDITS_PALETTES_ADDRESS = 0x21e914 := rfl
        omega
    rw [hx, hrom4]
    unfold EbTable.to_block
    exact read_writeBytes_getD _ rom3 new_table_offset k hk

/-- C1 witness: the patched references and relocated table bytes at a
concrete successful write pass over the module's free ranges. -/
theorem write_to_rom_patches_references_witness :
    (∀ r ∈ FONT_POINTER_TABLE_REFERENCES,
      readPointer wOut1.2.1 r.site
        = (to_snes_address wOut1.2.2 + r.pointer_offset) % 0x1000000) ∧
    (∀ k, k < (tableBytes wOut1.1).length →
      wOut1.2.1.read (wOut1.2.2 + k) = (tableBytes wOut1.1).getD k 0 % 256) :=
  write_to_rom_patches_references wFonts wCredits wTbl wRom wOut1.1 wOut1.2.1 wOut1.2.2
    (by rfl) rfl (by decide)

/-! Congruence of a write pass in the ROM contents: two passes over the same
fonts with equal allocator states emit the same write log. -/

theorem allocate_cong (ra rb : Rom) (size : Nat) (h : ra.freeRanges = rb.freeRanges)
    (oa : Nat) (ra' : Rom) (ob : Nat) (rb' : Rom)
    (ha : ra.allocate size = some (oa, ra')) (hb : rb.allocate size = some (ob, rb')) :
    oa = ob ∧ ra'.freeRanges = rb'.freeRanges ∧ ra'.mem = ra.mem ∧ rb'.mem = rb.mem := by
  unfold Rom.allocate at ha hb
  rw [h] at ha
  cases hx : allocateAux rb.freeRanges size with
  | none =>
    rw [hx] at ha
    exact absurd ha (by simp)
  | some pr =>
    obtain ⟨off, ranges⟩ := pr
    rw [hx] at ha hb
    simp only [Option.some.injEq, Prod.mk.injEq] at ha hb
    obtain ⟨rfl, rfl⟩ := ha
    obtain ⟨rfl, rfl⟩ := hb
    exact ⟨rfl, rfl, rfl, rfl⟩

theorem to_block_cong (f : EbFont) (ra rb : Rom) (hfr : ra.freeRanges = rb.freeRanges)
    (ga wa : Nat) (ra' : Rom) (gb wb : Nat) (rb' : Rom)
    (ha : f.to_block ra = some (ga, wa, ra')) (hb : f.to_block rb = some (gb, wb, rb')) :
    ga = gb ∧ wa = wb ∧ ra'.freeRanges = rb'.freeRanges ∧
    ∃ ws, ra'.mem = ws ++ ra.mem ∧ rb'.mem = ws ++ rb.mem := by
  unfold EbFont.to_block at ha hb
  cases h1a : ra.allocate f.tilesetBytes.length with
  | none => rw [h1a] at ha; exact absurd ha (by simp)
  | some p1a =>
    obtain ⟨g1a, r1a⟩ := p1a
    rw [h1a] at ha
    cases h1b : rb.allocate f.tilesetBytes.length with
    | none => rw [h1b] at hb; exact absurd hb (by simp)
    | some p1b =>
      obtain ⟨g1b, r1b⟩ := p1b
      rw [h1b] at hb
      obtain ⟨hg, hfr1, hma, hmb⟩ := allocate_cong ra rb _ hfr _ _ _ _ h1a h1b
      subst hg
      simp only at ha hb
      cases h2a : (r1a.writeBytes g1a f.tilesetBytes).allocate f.widthsBytes.length with
      | none => rw [h2a] at ha; exact absurd ha (by simp)
      | some p2a =>
        obtain ⟨w1a, r2a⟩ := p2a
        rw [h2a] at ha
        cases h2b : (r1b.writeBytes g1a f.tilesetBytes).allocate f.widthsBytes.length with
        | none => rw [h2b] at hb; exact absurd hb (by simp)
        | some p2b =>
          obtain ⟨w1b, r2b⟩ := p2b
          rw [h2b] at hb
          obtain ⟨hw, hfr2, hma2, hmb2⟩ := allocate_cong _ _ _
            (by rw [writeBytes_freeRanges, writeBytes_freeRanges, hfr1]) _ _ _ _ h2a h2b
          subst hw
          simp only [Option.some.injEq, Prod.mk.injEq] at ha hb
          obtain ⟨rfl, rfl, rfl⟩ := ha
          obtain ⟨rfl, rfl, rfl⟩ := hb
          refine ⟨rfl, rfl, by rw [writeBytes_freeRanges, writeBytes_freeRanges, hfr2],
            writeLog w1a f.widthsBytes ++ writeLog g1a f.tilesetBytes, ?_, ?_⟩
          · rw [writeBytes_mem, hma2, writeBytes_mem, hma, List.append_assoc]
          · rw [writeBytes_mem, hmb2, writeBytes_mem, hmb, List.append_assoc]

theorem writeFontsLoop_cong :
    ∀ (fs : List EbFont) (i : Nat) (ta tb : EbTable) (ra rb : Rom)
      (ta' : EbTable) (ra' : Rom) (tb' : EbTable) (rb' : Rom),
      writeFontsLoop fs i ta ra = some (ta', ra') →
      writeFontsLoop fs i tb rb = some (tb', rb') →
      ra.freeRanges = rb.freeRanges →
      i + fs.length ≤ ta.values.length →
      i + fs.length ≤ tb.values.length →
      (∀ j, i ≤ j → j < i + fs.length → (ta.values.getD j []).length = 4) →
      (∀ j, i ≤ j → j < i + fs.length → (tb.values.getD j []).length = 4) →
      ra'.freeRanges = rb'.freeRanges ∧
      (∃ ws, ra'.mem = ws ++ ra.mem ∧ rb'.mem = ws ++ rb.mem) ∧
      (∀ k, k < fs.length → ta'.values.getD (i + k) [] = tb'.values.getD (i + k) []) := by
  intro fs
  induction fs with
  | nil =>
    intro i ta tb ra rb ta' ra' tb' rb' ha hb hfr _ _ _ _
    simp only [writeFontsLoop, Option.some.injEq, Prod.mk.injEq] at ha hb
    obtain ⟨rfl, rfl⟩ := ha
    obtain ⟨rfl, rfl⟩ := hb
    exact ⟨hfr, ⟨[], rfl, rfl⟩, fun k hk => by simp at hk⟩
  | cons font rest ih =>
    intro i ta tb ra rb ta' ra' tb' rb' ha hb hfr hla hlb hrowa hrowb
    simp only [writeFontsLoop] at ha hb
    cases hba : font.to_block ra with
    | none => rw [hba] at ha; exact absurd ha (by simp)
    | some pra =>
      obtain ⟨gA, wA, ra2⟩ := pra
      rw [hba] at ha
      cases hbb : font.to_block rb with
      | none => rw [hbb] at hb; exact absurd hb (by simp)
      | some prb =>
        obtain ⟨gB, wB, rb2⟩ := prb
        rw [hbb] at hb
        obtain ⟨hg, hw, hfr2, ws1, hm1a, hm1b⟩ :=
          to_block_cong font ra rb hfr _ _ _ _ _ _ hba hbb
        subst hg
        subst hw
        simp only at ha hb
        have hiva : i < ta.values.length := by
          simp only [List.length_cons] at hla; omega
        have hivb : i < tb.values.length := by
          simp only [List.length_cons] at hlb; omega
        have hrow4a : (ta.values.getD i []).length = 4 := hrowa i le_rfl (by simp)
        have hrow4b : (tb.values.getD i []).length = 4 := hrowb i le_rfl (by simp)
        have hvalsA := setFields_values ta i (to_snes_address wA) (to_snes_address gA)
          (font.tile_height * font.tile_width / 8) font.tile_height hiva hrow4a
        have hvalsB := setFields_values tb i (to_snes_address wA) (to_snes_address gA)
          (font.tile_height * font.tile_width / 8) font.tile_height hivb hrow4b
        set tda := (((ta.setField i 0 (to_snes_address wA)).setField i 1
          (to_snes_address gA)).setField i 2
          (font.tile_height * font.tile_width / 8)).setField i 3 font.tile_height with htda
        set tdb := (((tb.setField i 0 (to_snes_address wA)).setField i 1
          (to_snes_address gA)).setField i 2
          (font.tile_height * font.tile_width / 8)).setField i 3 font.tile_height with htdb
        have hdlena : tda.values.length = ta.values.length := by
          rw [hvalsA, List.length_set]
        have hdlenb : tdb.values.length = tb.values.length := by
          rw [hvalsB, List.length_set]
        have hdrowa : ∀ j, i ≤ j → j < i + 1 + rest.length →
            (tda.values.getD j []).length = 4 := by
          intro j h1 h2
          by_cases hji : j = i
          · subst hji
            rw [hvalsA, getD_set_self _ _ _ _ hiva]
            rfl
          · rw [hvalsA, getD_set_of_ne _ _ _ _ _ (fun e => hji e.symm)]
            exact hrowa j h1 (by simp only [List.length_cons]; omega)
        have hdrowb : ∀ j, i ≤ j → j < i + 1 + rest.length →
            (tdb.values.getD j []).length = 4 := by
          intro j h1 h2
          by_cases hji : j = i
          · subst hji
            rw [hvalsB, getD_set_self _ _ _ _ hivb]
            rfl
          · rw [hvalsB, getD_set_of_ne _ _ _ _ _ (fun e => hji e.symm)]
            exact hrowb j h1 (by simp only [List.length_cons]; omega)
        obtain ⟨hfrR, ⟨ws2, hm2a, hm2b⟩, hrowsR⟩ := ih (i + 1) tda tdb ra2 rb2 ta' ra' tb' rb'
          ha hb hfr2
          (by rw [hdlena]; simp only [List.length_cons] at hla; omega)
          (by rw [hdlenb]; simp only [List.length_cons] at hlb; omega)
          (fun j h1 h2 => hdrowa j (by omega) h2)
          (fun j h1 h2 => hdrowb j (by omega) h2)
        obtain ⟨_, _, huA, _, _, _⟩ := writeFontsLoop_spec rest (i + 1) tda ra2 ta' ra' ha
          (by rw [hdlena]; simp only [List.length_cons] at hla; omega)
          (fun j h1 h2 => hdrowa j (by omega) h2)
        obtain ⟨_, _, huB, _, _, _⟩ := writeFontsLoop_spec rest (i + 1) tdb rb2 tb' rb' hb
          (by rw [hdlenb]; simp only [List.length_cons] at hlb; omega)
          (fun j h1 h2 => hdrowb j (by omega) h2)
        refine ⟨hfrR, ⟨ws2 ++ ws1, ?_, ?_⟩, ?_⟩
        · rw [hm2a, hm1a, List.append_assoc]
        · rw [hm2b, hm1b, List.append_assoc]
        · intro k hk
          cases k with
          | zero =>
            rw [Nat.add_zero, huA i (Or.inl (by omega)), huB i (Or.inl (by omega)),
              hvalsA, hvalsB, getD_set_self _ _ _ _ hiva, getD_set_self _ _ _ _ hivb]
          | succ k =>
            have : i + (k + 1) = (i + 1) + k := by omega
            rw [this]
            exact hrowsR k (by simp only [List.length_cons] at hk; omega)

theorem credits_to_block_cong (f : EbCreditsFont) (ra rb : Rom) (asmoff paloff : Nat)
    (hfr : ra.freeRanges = rb.freeRanges) (ra' rb' : Rom)
    (ha : f.to_block ra asmoff paloff = some ra')
    (hb : f.to_block rb asmoff paloff = some rb') :
    ∃ ws, ra'.mem = ws ++ ra.mem ∧ rb'.mem = ws ++ rb.mem := by
  obtain ⟨gA, rA1, hAa, hArw⟩ := credits_to_block_stages f ra asmoff paloff ra' ha
  obtain ⟨gB, rB1, hAb, hBrw⟩ := credits_to_block_stages f rb asmoff paloff rb' hb
  obtain ⟨hg, _, hma, hmb⟩ := allocate_cong ra rb _ hfr _ _ _ _ hAa hAb
  subst hg
  refine ⟨writeLog paloff f.palette ++ (writeLog asmoff (le3 (to_snes_address gA % 0x1000000))
    ++ writeLog gA f.graphics), ?_, ?_⟩
  · rw [hArw, writeBytes_mem, writeBytes_mem, writeBytes_mem, hma]
    simp [List.append_assoc]
  · rw [hBrw, writeBytes_mem, writeBytes_mem, writeBytes_mem, hmb]
    simp [List.append_assoc]

theorem write_to_rom_cong (fonts : List EbFont) (credits_font : EbCreditsFont)
    (ta tb : EbTable) (ra rb : Rom) (hfr : ra.freeRanges = rb.freeRanges)
    (oa ob : EbTable × Rom × Nat)
    (ha : write_to_rom fonts credits_font ta ra = some oa)
    (hb : write_to_rom fonts credits_font tb rb = some ob) :
    ∃ ws, oa.2.1.mem = ws ++ ra.mem ∧ ob.2.1.mem = ws ++ rb.mem := by
  obtain ⟨ra1, ra2, hLa, hAa, hCa⟩ := write_to_rom_stages fonts credits_font ta ra
    oa.1 oa.2.1 oa.2.2 ha
  obtain ⟨rb1, rb2, hLb, hAb, hCb⟩ := write_to_rom_stages fonts credits_font tb rb
    ob.1 ob.2.1 ob.2.2 hb
  have hflenA := from_block_values_length ta ra (from_snes_address FONT_POINTER_TABLE_OFFSET)
  have hplenA := padRows_length ((ta.from_block ra
    (from_snes_address FONT_POINTER_TABLE_OFFSET))).values fonts.length
  have hflenB := from_block_values_length tb rb (from_snes_address FONT_POINTER_TABLE_OFFSET)
  have hplenB := padRows_length ((tb.from_block rb
    (from_snes_address FONT_POINTER_TABLE_OFFSET))).values fonts.length
  have hlenA : 0 + fonts.length ≤ (padRows ((ta.from_block ra
      (from_snes_address FONT_POINTER_TABLE_OFFSET))).values fonts.length).length := by
    simp only [hplenA, hflenA]; omega
  have hlenB : 0 + fonts.length ≤ (padRows ((tb.from_block rb
      (from_snes_address FONT_POINTER_TABLE_OFFSET))).values fonts.length).length := by
    simp only [hplenB, hflenB]; omega
  have hrowsA : ∀ j, 0 ≤ j → j < 0 + fonts.length →
      ((padRows ((ta.from_block ra (from_snes_address FONT_POINTER_TABLE_OFFSET))).values
        fonts.length).getD j []).length = 4 := by
    intro j _ hj
    apply padRows_row_length
    · intro j' hj'
      rw [hflenA] at hj'
      exact from_block_row_length ta ra _ j' hj'
    · rw [hflenA]
      simp only [hplenA, hflenA] at *
      omega
  have hrowsB : ∀ j, 0 ≤ j → j < 0 + fonts.length →
      ((padRows ((tb.from_block rb (from_snes_address FONT_POINTER_TABLE_OFFSET))).values
        fonts.length).getD j []).length = 4 := by
    intro j _ hj
    apply padRows_row_length
    · intro j' hj'
      rw [hflenB] at hj'
      exact from_block_row_length tb rb _ j' hj'
    · rw [hflenB]
      simp only [hplenB, hflenB] at *
      omega
  obtain ⟨hfr1, ⟨ws1, hm1a, hm1b⟩, hrowsEq⟩ := writeFontsLoop_cong fonts 0 _ _ ra rb
    oa.1 ra1 ob.1 rb1 hLa hLb hfr
    (by dsimp only; exact hlenA) (by dsimp only; exact hlenB)
    (by dsimp only; exact hrowsA) (by dsimp only; exact hrowsB)
  obtain ⟨hnA, hlA, _, _, _, _⟩ := writeFontsLoop_spec fonts 0 _ ra oa.1 ra1 hLa
    (by dsimp only; exact hlenA) (by dsimp only; exact hrowsA)
  obtain ⟨hnB, hlB, _, _, _, _⟩ := writeFontsLoop_spec fonts 0 _ rb ob.1 rb1 hLb
    (by dsimp only; exact hlenB) (by dsimp only; exact hrowsB)
  dsimp only at hnA hlA hnB hlB
  obtain ⟨hoff, hfr2, hm2a, hm2b⟩ := allocate_cong ra1 rb1 _ hfr1 _ _ _ _ hAa hAb
  have hbytes : tableBytes oa.1 = tableBytes ob.1 := by
    unfold tableBytes
    have htake : oa.1.values.take fonts.length = ob.1.values.take fonts.length := by
      apply take_eq_of_getD []
      · rw [hlA, hplenA, hflenA]; omega
      · rw [hlB, hplenB, hflenB]; omega
      · intro k hk
        have := hrowsEq k hk
        simpa using this
    rw [hnA, hnB, htake]
  obtain ⟨logR, hlogR⟩ := foldl_write_mem FONT_POINTER_TABLE_REFERENCES
    (to_snes_address oa.2.2)
  have hoff2 : ob.2.2 = oa.2.2 := hoff.symm
  rw [hoff2] at hCb hAb
  obtain ⟨wsC, hmCa, hmCb⟩ := credits_to_block_cong credits_font _ _
    CREDITS_GRAPHICS_ASM_POINTER CREDITS_PALETTES_ADDRESS
    (by
      unfold EbTable.to_block
      rw [writeBytes_freeRanges, writeBytes_freeRanges,
        foldl_write_freeRanges, foldl_write_freeRanges, hfr2])
    oa.2.1 ob.2.1 hCa hCb
  refine ⟨wsC ++ (writeLog oa.2.2 (tableBytes oa.1) ++ (logR ++ ws1)), ?_, ?_⟩
  · rw [hmCa]
    unfold EbTable.to_block
    rw [writeBytes_mem, hlogR, hm2a, hm1a]
    simp [List.append_assoc]
  · rw [hmCb]
    unfold EbTable.to_block
    rw [writeBytes_mem, hbytes, hlogR, hm2b, hm1b]
    simp [List.append_assoc]

theorem find?_dup_prefix (ws m : List (Nat × Nat)) (a : Nat) :
    List.find? (fun p => p.1 == a) (ws ++ (ws ++ m))
      = List.find? (fun p => p.1 == a) (ws ++ m) := by
  rw [List.find?_append, List.find?_append]
  cases h : List.find? (fun p => p.1 == a) ws <;> simp [h]

/-- C6: running `write_to_rom` twice in succession on the same font set,
with the allocator reset to the same free ranges before each run, produces
byte-identical ROM output both times. -/
theorem write_to_rom_rerun_identical (fonts : List EbFont) (credits_font : EbCreditsFont)
    (font_pointer_table tbl2 : EbTable) (rom : Rom)
    (t1 : EbTable) (r1 : Rom) (o1 : Nat) (t2 : EbTable) (r2 : Rom) (o2 : Nat)
    (h1 : write_to_rom fonts credits_font font_pointer_table rom = some (t1, r1, o1))
    (h2 : write_to_rom fonts credits_font tbl2 { r1 with freeRanges := rom.freeRanges }
      = some (t2, r2, o2)) :
    ∀ a, r2.read a = r1.read a := by
  obtain ⟨ws, hA, hB⟩ := write_to_rom_cong fonts credits_font tbl2 font_pointer_table
    { r1 with freeRanges := rom.freeRanges } rom rfl (t2, r2, o2) (t1, r1, o1) h2 h1
  intro a
  have hA' : r2.mem = ws ++ r1.mem := hA
  have hmem2 : r2.mem = ws ++ (ws ++ rom.mem) := by rw [hA', hB]
  unfold Rom.read
  rw [hmem2, hB, find?_dup_prefix]

/-- C6 witness: the two concrete passes agree at the first allocated byte,
at the first patch site, and at an untouched address. -/
theorem write_to_rom_rerun_identical_witness :
    wOut2.2.1.read 0x21e528 = wOut1.2.1.read 0x21e528 ∧
    wOut2.2.1.read 0x43E7E = wOut1.2.1.read 0x43E7E ∧
    wOut2.2.1.read 0 = wOut1.2.1.read 0 :=
  ⟨write_to_rom_rerun_identical wFonts wCredits wTbl wOut1.1 wRom
    wOut1.1 wOut1.2.1 wOut1.2.2 wOut2.1 wOut2.2.1 wOut2.2.2 (by rfl) (by rfl) 0x21e528,
   write_to_rom_rerun_identical wFonts wCredits wTbl wOut1.1 wRom
    wOut1.1 wOut1.2.1 wOut1.2.2 wOut2.1 wOut2.2.1 wOut2.2.2 (by rfl) (by rfl) 0x43E7E,
   write_to_rom_rerun_identical wFonts wCredits wTbl wOut1.1 wRom
    wOut1.1 wOut1.2.1 wOut1.2.2 wOut2.1 wOut2.2.1 wOut2.2.2 (by rfl) (by rfl) 0⟩

/-! Extension-font discovery lemmas. -/

theorem read_extra_fonts_loop_length (store : String → Option ProjFile) :
    ∀ (fuel : Nat) (fonts : List EbFont) (idx : Nat),
      (read_extra_fonts_loop store fuel fonts idx).length ≤ fonts.length + fuel := by
  intro fuel
  induction fuel with
  | zero =>
    intro fonts idx
    simp [read_extra_fonts_loop]
  | succ n ih =>
    intro fonts idx
    simp only [read_extra_fonts_loop]
    cases h : probeFont store idx with
    | none =>
      dsimp only
      omega
    | some f =>
      dsimp only
      have h2 := ih (fonts ++ [f]) (idx + 1)
      simp only [List.length_append, List.length_cons, List.length_nil] at h2
      omega

theorem read_extra_fonts_loop_spec (store : String → Option ProjFile) (fj : Nat → EbFont)
    (g : Nat) (hfail : probeFont store g = none) :
    ∀ (fuel idx : Nat) (fonts : List EbFont),
      idx + fuel = MAX_FONT_INDEX → idx ≤ g → g < MAX_FONT_INDEX →
      (∀ j, idx ≤ j → j < g → probeFont store j = some (fj j)) →
      read_extra_fonts_loop store fuel fonts idx
        = fonts ++ (List.range' idx (g - idx)).map fj := by
  intro fuel
  induction fuel with
  | zero =>
    intro idx fonts h1 h2 h3 _
    simp only [MAX_FONT_INDEX] at h1 h3
    omega
  | succ n ih =>
    intro idx fonts h1 h2 h3 hok
    simp only [read_extra_fonts_loop]
    rcases Nat.eq_or_lt_of_le h2 with rfl | hlt
    · rw [hfail]
      simp
    · rw [hok idx le_rfl hlt]
      dsimp only
      rw [ih (idx + 1) (fonts ++ [fj idx]) (by omega) hlt h3
        (fun j hj1 hj2 => hok j (by omega) hj2)]
      have hgi : g - idx = (g - (idx + 1)) + 1 := by omega
      rw [hgi, List.range'_succ]
      simp [List.append_assoc]

theorem read_extra_fonts_loop_local (sA sB : String → Option ProjFile) :
    ∀ (fuel idx : Nat) (fonts : List EbFont),
      (∀ j, idx ≤ j → j < idx + fuel → probeFont sA j = probeFont sB j) →
      read_extra_fonts_loop sA fuel fonts idx = read_extra_fonts_loop sB fuel fonts idx := by
  intro fuel
  induction fuel with
  | zero => intro idx fonts _; rfl
  | succ n ih =>
    intro idx fonts h
    simp only [read_extra_fonts_loop]
    rw [h idx le_rfl (by omega)]
    cases hb : probeFont sB idx with
    | none => rfl
    | some f =>
      dsimp only
      exact ih (idx + 1) (fonts ++ [f]) (fun j hj1 hj2 => h j (by omega) (by omega))

theorem loadBaseLoop_length (store : String → Option ProjFile) :
    ∀ (l : List (EbFont × String)) (fs : List EbFont),
      loadBaseLoop store l = some fs → fs.length = l.length := by
  intro l
  induction l with
  | nil =>
    intro fs h
    simp only [loadBaseLoop, Option.some.injEq] at h
    subst h
    rfl
  | cons p rest ih =>
    intro fs h
    obtain ⟨f, nm⟩ := p
    simp only [loadBaseLoop] at h
    split at h
    · split at h
      · next fs2 h3 =>
        simp only [Option.some.injEq] at h
        subst h
        simp [ih fs2 h3]
      · exact absurd h (by simp)
    · exact absurd h (by simp)

/-- C4: extension fonts are discovered by probing sequentially increasing
resource names starting at index 5; the first missing resource terminates
discovery as a normal end-of-sequence signal, every font loaded before it
is kept and appended in order, and no index past the gap is probed or
retained — the result is unchanged under any store that agrees up to the
gap. -/
theorem read_extra_fonts_discovery_gap (store : String → Option ProjFile)
    (fonts : List EbFont) (g : Nat) (fj : Nat → EbFont)
    (hg5 : 5 ≤ g) (hgM : g < MAX_FONT_INDEX)
    (hok : ∀ j, 5 ≤ j → j < g → probeFont store j = some (fj j))
    (hfail : probeFont store g = none) :
    read_extra_fonts store fonts 5 = fonts ++ (List.range' 5 (g - 5)).map fj ∧
    ∀ store' : String → Option ProjFile,
      (∀ j, 5 ≤ j → j ≤ g → probeFont store' j = probeFont store j) →
      read_extra_fonts store' fonts 5 = read_extra_fonts store fonts 5 := by
  constructor
  · unfold read_extra_fonts
    exact read_extra_fonts_loop_spec store fj g hfail (MAX_FONT_INDEX - 5) 5 fonts
      (by decide) hg5 hgM hok
  · intro store' hagree
    unfold read_extra_fonts
    have hfail' : probeFont store' g = none := by rw [hagree g hg5 le_rfl, hfail]
    rw [read_extra_fonts_loop_spec store fj g hfail (MAX_FONT_INDEX - 5) 5 fonts
        (by decide) hg5 hgM hok,
      read_extra_fonts_loop_spec store' fj g hfail' (MAX_FONT_INDEX - 5) 5 fonts
        (by decide) hg5 hgM
        (fun j hj1 hj2 => by rw [hagree j hj1 (by omega)]; exact hok j hj1 hj2)]

/-- C4 witness: a store with one extension font at index 5 and a missing
index 6, probed from 5. -/
theorem read_extra_fonts_discovery_gap_witness :
    read_extra_fonts storeG6 initFonts 5
      = initFonts ++ (List.range' 5 (6 - 5)).map (fun _ => fontAt5) ∧
    ∀ store' : String → Option ProjFile,
      (∀ j, 5 ≤ j → j ≤ 6 → probeFont store' j = probeFont storeG6 j) →
      read_extra_fonts store' initFonts 5 = read_extra_fonts storeG6 initFonts 5 :=
  read_extra_fonts_discovery_gap storeG6 initFonts 6 (fun _ => fontAt5)
    (by omega) (by decide)
    (fun j h1 h2 => by
      have : j = 5 := by omega
      subst this
      rfl)
    (by rfl)

/-- C8: any failure while probing an extension font (missing resource or a
present-but-ill-formed one) terminates discovery normally: no error
propagates, the fonts discovered before the failure are kept, and a
corrupt-but-present resource is indistinguishable from a clean end of the
sequence — two stores that agree before the failing index and both fail at
it (for any reasons) produce identical results. -/
theorem read_extra_fonts_catch_all (sA sB : String → Option ProjFile)
    (fonts : List EbFont) (g : Nat) (fj : Nat → EbFont)
    (hg5 : 5 ≤ g) (hgM : g < MAX_FONT_INDEX)
    (hok : ∀ j, 5 ≤ j → j < g → probeFont sA j = some (fj j))
    (hfailA : probeFont sA g = none)
    (hagree : ∀ j, 5 ≤ j → j < g → probeFont sB j = probeFont sA j)
    (hfailB : probeFont sB g = none) :
    read_extra_fonts sA fonts 5 = fonts ++ (List.range' 5 (g - 5)).map fj ∧
    read_extra_fonts sB fonts 5 = read_extra_fonts sA fonts 5 := by
  have hA : read_extra_fonts sA fonts 5 = fonts ++ (List.range' 5 (g - 5)).map fj := by
    unfold read_extra_fonts
    exact read_extra_fonts_loop_spec sA fj g hfailA (MAX_FONT_INDEX - 5) 5 fonts
      (by decide) hg5 hgM hok
  refine ⟨hA, ?_⟩
  have hB : read_extra_fonts sB fonts 5 = fonts ++ (List.range' 5 (g - 5)).map fj := by
    unfold read_extra_fonts
    exact read_extra_fonts_loop_spec sB fj g hfailB (MAX_FONT_INDEX - 5) 5 fonts
      (by decide) hg5 hgM
      (fun j hj1 hj2 => by rw [hagree j hj1 hj2]; exact hok j hj1 hj2)
  rw [hA, hB]

/-- C8 witness: a corrupt-but-present index-6 resource behaves exactly like
a missing one. -/
theorem read_extra_fonts_catch_all_witness :
    read_extra_fonts storeG6corrupt initFonts 5
      = initFonts ++ (List.range' 5 (6 - 5)).map (fun _ => fontAt5) ∧
    read_extra_fonts storeG6 initFonts 5 = read_extra_fonts storeG6corrupt initFonts 5 :=
  read_extra_fonts_catch_all storeG6corrupt storeG6 initFonts 6 (fun _ => fontAt5)
    (by omega) (by decide)
    (fun j h1 h2 => by
      have : j = 5 := by omega
      subst this
      rfl)
    (by rfl)
    (fun j h1 h2 => by
      have : j = 5 := by omega
      subst this
      rfl)
    (by rfl)

/-- C9: discovery probes only indices 5 through 63 (`MAX_FONT_INDEX = 64`,
exclusive): at most 59 extra fonts are discovered, the result is
independent of resources at index 64 and beyond, and after
`read_from_project` the font list never holds more than 64 fonts. -/
theorem read_from_project_bounded (store : String → Option ProjFile)
    (fonts : List EbFont) :
    (read_extra_fonts store fonts 5).length ≤ fonts.length + 59 ∧
    (∀ store' : String → Option ProjFile,
      (∀ j, 5 ≤ j → j < MAX_FONT_INDEX → probeFont store' j = probeFont store j) →
      read_extra_fonts store' fonts 5 = read_extra_fonts store fonts 5) ∧
    (∀ fs, read_from_project store = some fs → fs.length ≤ 64) := by
  refine ⟨?_, ?_, ?_⟩
  · unfold read_extra_fonts
    have := read_extra_fonts_loop_length store (MAX_FONT_INDEX - 5) fonts 5
    simpa using this
  · intro store' hagree
    unfold read_extra_fonts
    exact read_extra_fonts_loop_local store' store (MAX_FONT_INDEX - 5) 5 fonts
      (fun j hj1 hj2 => hagree j hj1 (by simp only [MAX_FONT_INDEX] at *; omega))
  · intro fs h
    simp only [read_from_project] at h
    split at h
    · exact absurd h (by simp)
    · next base hbase =>
      simp only [Option.some.injEq] at h
      subst h
      have hb := loadBaseLoop_length store _ base hbase
      have hlen : (initFonts.zip FONT_FILENAMES).length = 5 := rfl
      have := read_extra_fonts_loop_length store (MAX_FONT_INDEX - 5) base 5
      unfold read_extra_fonts
      simp only [MAX_FONT_INDEX] at this ⊢
      omega

/-- C9 witness: the bounds at a concrete full project store. -/
theorem read_from_project_bounded_witness :
    (read_extra_fonts storeFull initFonts 5).length ≤ initFonts.length + 59 ∧
    read_extra_fonts storeFull initFonts 5 = read_extra_fonts storeFull initFonts 5 ∧
    ((read_from_project storeFull).getD []).length ≤ 64 := by
  obtain ⟨h1, h2, h3⟩ := read_from_project_bounded storeFull initFonts
  exact ⟨h1, h2 storeFull (fun j _ _ => rfl), h3 _ (by rfl)⟩

/-- C10: the five base fonts are stored under the fixed resource names
`["0", "1", "3", "4", "2"]` — a non-identity permutation of `0..4` (index 2
maps to resource 3, index 3 to 4, index 4 to 2) — and `read_from_project`
and `write_to_project` use the same mapping, so a project round-trip pairs
each font with its own files. -/
theorem font_filenames_roundtrip :
    FONT_FILENAMES.Perm ["0", "1", "2", "3", "4"] ∧
    FONT_FILENAMES ≠ ["0", "1", "2", "3", "4"] ∧
    FONT_FILENAMES.get? 2 = some ("3") ∧
    FONT_FILENAMES.get? 3 = some ("4") ∧
    FONT_FILENAMES.get? 4 = some ("2") ∧
    ∀ f0 f1 f2 f3 f4 : EbFont,
      ∃ files, write_to_project [f0, f1, f2, f3, f4] = some files ∧
        read_from_project (storeOfList files) =
          some [ ⟨128, 16, 16, f0.bitmap, f0.widths⟩,
                 ⟨128, 16, 16, f1.bitmap, f1.widths⟩,
                 ⟨128, 8, 16, f2.bitmap, f2.widths⟩,
                 ⟨128, 8, 8, f3.bitmap, f3.widths⟩,
                 ⟨128, 16, 16, f4.bitmap, f4.widths⟩ ] := by
  refine ⟨by decide, by decide, rfl, rfl, rfl, ?_⟩
  intro f0 f1 f2 f3 f4
  exact ⟨_, rfl, rfl⟩

/-! Project resource write/lookup lemmas. -/

theorem find?_map_write_aux (name : String) (file : ProjFile) :
    ∀ rs : List (String × ProjFile), (rs.find? (fun p => p.1 == name)).isSome →
      ((rs.map (fun p => if p.1 == name then (p.1, file) else p)).find?
        (fun p => p.1 == name)).map (fun p => p.2) = some file := by
  intro rs
  induction rs with
  | nil => intro h; simp [List.find?] at h
  | cons p rest ih =>
    intro h
    by_cases hb : (p.1 == name) = true
    · simp only [List.map_cons, if_pos hb]
      rw [List.find?_cons_of_pos _ (by simpa using hb)]
      rfl
    · simp only [List.map_cons, if_neg hb]
      rw [List.find?_cons_of_neg _ (by simpa using hb)]
      apply ih
      rw [List.find?_cons_of_neg _ (by simpa using hb)] at h
      exact h

theorem findResource_write_self (rs : List (String × ProjFile)) (name : String)
    (file : ProjFile) : findResource (writeResource rs name file) name = some file := by
  unfold findResource writeResource
  by_cases h : (rs.find? (fun p => p.1 == name)).isSome
  · rw [if_pos h]
    exact find?_map_write_aux name file rs h
  · rw [if_neg h, List.find?_append]
    have hnone : rs.find? (fun p => p.1 == name) = none := by
      cases hx : rs.find? (fun p => p.1 == name) with
      | none => rfl
      | some q => rw [hx] at h; simp at h
    rw [hnone]
    simp [List.find?]

theorem find?_map_write_other_aux (name name' : String) (file : ProjFile)
    (h : name' ≠ name) :
    ∀ rs : List (String × ProjFile),
      ((rs.map (fun p => if p.1 == name then (p.1, file) else p)).find?
        (fun p => p.1 == name')).map (fun p => p.2)
      = (rs.find? (fun p => p.1 == name')).map (fun p => p.2) := by
  intro rs
  induction rs with
  | nil => rfl
  | cons p rest ih =>
    by_cases hb : (p.1 == name) = true
    · by_cases hb' : (p.1 == name') = true
      · exfalso
        have e1 : p.1 = name := by simpa using hb
        have e2 : p.1 = name' := by simpa using hb'
        exact h (by rw [← e2, e1])
      · simp only [List.map_cons, if_pos hb]
        rw [List.find?_cons_of_neg _ (by simpa using hb'),
          List.find?_cons_of_neg _ (by simpa using hb')]
        exact ih
    · by_cases hb' : (p.1 == name') = true
      · simp only [List.map_cons, if_neg hb]
        rw [List.find?_cons_of_pos _ (by simpa using hb'),
          List.find?_cons_of_pos _ (by simpa using hb')]
      · simp only [List.map_cons, if_neg hb]
        rw [List.find?_cons_of_neg _ (by simpa using hb'),
          List.find?_cons_of_neg _ (by simpa using hb')]
        exact ih

theorem findResource_write_other (rs : List (String × ProjFile)) (name name' : String)
    (file : ProjFile) (h : name' ≠ name) :
    findResource (writeResource rs name file) name' = findResource rs name' := by
  unfold findResource writeResource
  by_cases hx : (rs.find? (fun p => p.1 == name)).isSome
  · rw [if_pos hx]
    exact find?_map_write_other_aux name name' file h rs
  · rw [if_neg hx, List.find?_append]
    have hbn : (name == name') = false := beq_eq_false_iff_ne.mpr (fun e => h e.symm)
    have hsingle : List.find? (fun p => p.1 == name') [(name, file)] = none := by
      simp [List.find?, hbn]
    rw [hsingle]
    cases hy : rs.find? (fun p => p.1 == name') <;> simp

theorem name_ne_widths (s : String) : s ≠ s ++ "_widths" := by
  intro e
  have h := congrArg String.length e
  rw [String.length_append] at h
  have h7 : ("_widths" : String).length = 7 := rfl
  omega

/-! Width-table expansion lemmas. -/

theorem foldl_addMissing :
    ∀ (l : List Nat) (acc : List (Nat × Nat)),
      (∀ c ∈ l, acc.find? (fun p => p.1 == c) = none) → l.Nodup →
      l.foldl (fun acc character_id =>
        if (acc.find? (fun p => p.1 == character_id)).isSome then acc
        else acc ++ [(character_id, 0)]) acc
      = acc ++ l.map (fun c => (c, 0)) := by
  intro l
  induction l with
  | nil => intro acc _ _; simp
  | cons c rest ih =>
    intro acc habs hnd
    simp only [List.foldl_cons]
    rw [habs c (List.mem_cons_self ..)]
    rw [if_neg (by simp)]
    have habs' : ∀ c' ∈ rest,
        ((acc ++ [(c, 0)]).find? (fun p : Nat × Nat => p.1 == c')) = none := by
      intro c' hc'
      rw [List.find?_append, habs c' (List.mem_cons_of_mem _ hc')]
      have hne : (c == c') = false := beq_eq_false_iff_ne.mpr
        (fun e => (List.nodup_cons.mp hnd).1 (e ▸ hc'))
      simp [List.find?, hne]
    rw [ih (acc ++ [(c, 0)]) habs' (List.nodup_cons.mp hnd).2]
    simp [List.append_assoc]

theorem expandWidths_eq (widths_dict : List (Nat × Nat))
    (hkeys : ∀ p ∈ widths_dict, p.1 < 96) :
    expandWidths widths_dict
      = widths_dict ++ (List.range' 96 32).map (fun c => (c, 0)) := by
  unfold expandWidths
  apply foldl_addMissing
  · intro c hc
    have hc96 : 96 ≤ c := (List.mem_range'_1.mp hc).1
    rw [List.find?_eq_none]
    intro p hp
    have := hkeys p hp
    simp only [beq_iff_eq]
    omega
  · decide

theorem find?_range'_zero : ∀ (n s c : Nat), s ≤ c → c < s + n →
    ((List.range' s n).map (fun k => (k, 0))).find? (fun p => p.1 == c) = some (c, 0) := by
  intro n
  induction n with
  | zero => intro s c h1 h2; omega
  | succ m ih =>
    intro s c h1 h2
    rw [List.range'_succ]
    simp only [List.map_cons]
    rcases Nat.eq_or_lt_of_le h1 with rfl | hlt
    · rw [List.find?_cons_of_pos _ (by simp)]
    · rw [List.find?_cons_of_neg _ (by simp only [beq_iff_eq]; omega)]
      exact ih (s + 1) c hlt (by omega)

theorem expandWidths_new (widths_dict : List (Nat × Nat))
    (hkeys : ∀ p ∈ widths_dict, p.1 < 96) (c : Nat) (h1 : 96 ≤ c) (h2 : c < 128) :
    (expandWidths widths_dict).find? (fun p => p.1 == c) = some (c, 0) := by
  rw [expandWidths_eq widths_dict hkeys, List.find?_append]
  have hnone : widths_dict.find? (fun p => p.1 == c) = none := by
    rw [List.find?_eq_none]
    intro p hp
    have := hkeys p hp
    simp only [beq_iff_eq]
    omega
  rw [hnone]
  simp only [Option.none_or]
  exact find?_range'_zero 32 96 c h1 (by omega)

theorem expandWidths_old (widths_dict : List (Nat × Nat))
    (hkeys : ∀ p ∈ widths_dict, p.1 < 96) (c : Nat) (h : c < 96) :
    (expandWidths widths_dict).find? (fun p => p.1 == c)
      = widths_dict.find? (fun p => p.1 == c) := by
  rw [expandWidths_eq widths_dict hkeys, List.find?_append]
  cases hx : widths_dict.find? (fun p => p.1 == c) with
  | some p => simp
  | none =>
    simp only [Option.none_or]
    rw [List.find?_eq_none]
    intro p hp
    obtain ⟨k, hk, rfl⟩ := List.mem_map.mp hp
    have hk96 : 96 ≤ k := (List.mem_range'_1.mp hk).1
    simp only [beq_iff_eq]
    omega

/-! Image expansion lemmas. -/

theorem expandImage_length (w h : Nat) (image : List (List Nat)) :
    (expandImage w h image).length = h := by
  simp [expandImage]

theorem expandImage_row_length (w h : Nat) (image : List (List Nat)) :
    ∀ row ∈ expandImage w h image, row.length = w := by
  intro row hrow
  unfold expandImage at hrow
  obtain ⟨y, _, rfl⟩ := List.mem_map.mp hrow
  simp

theorem get?_eq_some_getD {α : Type} (l : List α) (x : Nat) (d : α) (h : x < l.length) :
    l.get? x = some (l.getD x d) := by
  rw [List.get?_eq_getElem?, List.getD_eq_getElem?_getD, List.getElem?_eq_getElem h]
  rfl

theorem expandImage_pixel_in (w h : Nat) (image : List (List Nat)) (y x : Nat)
    (hy : y < h) (hx : x < w) (hxrow : x < (image.getD y []).length) :
    ((expandImage w h image).getD y []).getD x 0 = (image.getD y []).getD x 0 := by
  unfold expandImage
  rw [getD_map_range _ _ _ _ hy, getD_map_range _ _ _ _ hx,
    get?_eq_some_getD _ _ 0 hxrow]

theorem expandImage_pixel_blank (w h : Nat) (image : List (List Nat)) (y x : Nat)
    (hy : y < h) (hx : x < w) (hxrow : (image.getD y []).length ≤ x) :
    ((expandImage w h image).getD y []).getD x 0 = 1 := by
  unfold expandImage
  rw [getD_map_range _ _ _ _ hy, getD_map_range _ _ _ _ hx]
  have : (image.getD y []).get? x = none := List.get?_eq_none.mpr hxrow
  rw [this]

/-- C5: the v5→v6 step applied to a font with a 96-slot width table and
bitmap succeeds and yields a width table in which every character index
96..127 is present with value 0 and all original entries are unchanged,
and a bitmap widened to the 128-character canvas in which every newly
added pixel equals the blank palette index 1 (not 0) while the original
pixel content is preserved at the origin. -/
theorem upgradeFontV5_widens (font : EbFont) (nm : String)
    (rs : List (String × ProjFile)) (image : List (List Nat))
    (widths_dict : List (Nat × Nat))
    (hchars : font.num_characters = 128)
    (himg : findResource rs ("Fonts/" ++ nm) = some (.png image))
    (hwid : findResource rs ("Fonts/" ++ nm ++ "_widths") = some (.yml widths_dict))
    (hw : ∀ row ∈ image, row.length = 96 * font.tile_width)
    (hkeys : ∀ p ∈ widths_dict, p.1 < 96) :
    ∃ rs', upgradeFontV5 font nm rs = some rs' ∧
      findResource rs' ("Fonts/" ++ nm)
        = some (.png (expandImage (128 * font.tile_width) font.tile_height image)) ∧
      findResource rs' ("Fonts/" ++ nm ++ "_widths")
        = some (.yml (expandWidths widths_dict)) ∧
      (∀ c, 96 ≤ c → c < 128 →
        (expandWidths widths_dict).find? (fun p => p.1 == c) = some (c, 0)) ∧
      (∀ c, c < 96 →
        (expandWidths widths_dict).find? (fun p => p.1 == c)
          = widths_dict.find? (fun p => p.1 == c)) ∧
      (expandImage (128 * font.tile_width) font.tile_height image).length
        = font.tile_height ∧
      (∀ row ∈ expandImage (128 * font.tile_width) font.tile_height image,
        row.length = 128 * font.tile_width) ∧
      (∀ y x, y < font.tile_height → x < 96 * font.tile_width →
        x < (image.getD y []).length →
        ((expandImage (128 * font.tile_width) font.tile_height image).getD y []).getD x 0
          = (image.getD y []).getD x 0) ∧
      (∀ y x, y < font.tile_height → 96 * font.tile_width ≤ x →
        x < 128 * font.tile_width → y < image.length →
        ((expandImage (128 * font.tile_width) font.tile_height image).getD y []).getD x 0
          = 1) := by
  have hne : ("Fonts/" ++ nm ++ "_widths") ≠ ("Fonts/" ++ nm) :=
    Ne.symm (name_ne_widths ("Fonts/" ++ nm))
  have hsz : image_size font = (128 * font.tile_width, font.tile_height) := by
    unfold image_size
    rw [hchars]
  have hWother : findResource
      (writeResource rs ("Fonts/" ++ nm)
        (.png (expandImage (128 * font.tile_width) font.tile_height image)))
      ("Fonts/" ++ nm ++ "_widths") = some (.yml widths_dict) := by
    rw [findResource_write_other _ _ _ _ hne]
    exact hwid
  have hcomp : upgradeFontV5 font nm rs = some
      (writeResource
        (writeResource rs ("Fonts/" ++ nm)
          (.png (expandImage (128 * font.tile_width) font.tile_height image)))
        ("Fonts/" ++ nm ++ "_widths") (.yml (expandWidths widths_dict))) := by
    unfold upgradeFontV5
    rw [himg]
    dsimp only
    rw [hsz]
    dsimp only
    rw [hWother]
  refine ⟨_, hcomp, ?_, ?_, fun c h1 h2 => expandWidths_new widths_dict hkeys c h1 h2,
    fun c h => expandWidths_old widths_dict hkeys c h,
    expandImage_length _ _ _, expandImage_row_length _ _ _, ?_, ?_⟩
  · rw [findResource_write_other _ _ _ _ (fun e => hne e.symm)]
    exact findResource_write_self _ _ _
  · exact findResource_write_self _ _ _
  · intro y x hy hx hxrow
    exact expandImage_pixel_in _ _ image y x hy (by omega) hxrow
  · intro y x hy hx1 hx2 hyl
    apply expandImage_pixel_blank _ _ image y x hy hx2
    have hmem : image.getD y [] ∈ image := by
      rw [List.getD_eq_getElem?_getD, List.getElem?_eq_getElem hyl]
      simp only [Option.getD_some]
      exact List.getElem_mem hyl
    rw [hw (image.getD y []) hmem]
    exact hx1

/-- C5 witness: the migration step at a concrete 96-slot font. -/
theorem upgradeFontV5_widens_witness :
    ∃ rs', upgradeFontV5 wMigFont ("9") wMigProj = some rs' ∧
      findResource rs' ("Fonts/" ++ "9")
        = some (.png (expandImage (128 * wMigFont.tile_width) wMigFont.tile_height
            wMigImage)) ∧
      findResource rs' ("Fonts/" ++ "9" ++ "_widths")
        = some (.yml (expandWidths wMigWidths)) ∧
      (∀ c, 96 ≤ c → c < 128 →
        (expandWidths wMigWidths).find? (fun p => p.1 == c) = some (c, 0)) ∧
      (∀ c, c < 96 →
        (expandWidths wMigWidths).find? (fun p => p.1 == c)
          = wMigWidths.find? (fun p => p.1 == c)) ∧
      (expandImage (128 * wMigFont.tile_width) wMigFont.tile_height wMigImage).length
        = wMigFont.tile_height ∧
      (∀ row ∈ expandImage (128 * wMigFont.tile_width) wMigFont.tile_height wMigImage,
        row.length = 128 * wMigFont.tile_width) ∧
      (∀ y x, y < wMigFont.tile_height → x < 96 * wMigFont.tile_width →
        x < (wMigImage.getD y []).length →
        ((expandImage (128 * wMigFont.tile_width) wMigFont.tile_height
          wMigImage).getD y []).getD x 0 = (wMigImage.getD y []).getD x 0) ∧
      (∀ y x, y < wMigFont.tile_height → 96 * wMigFont.tile_width ≤ x →
        x < 128 * wMigFont.tile_width → y < wMigImage.length →
        ((expandImage (128 * wMigFont.tile_width) wMigFont.tile_height
          wMigImage).getD y []).getD x 0 = 1) :=
  upgradeFontV5_widens wMigFont ("9") wMigProj wMigImage wMigWidths
    rfl (by rfl) (by rfl) (by decide) (by decide)

/-! Migration-walk lemmas. -/

theorem upgradeFontV5_preserves (font : EbFont) (nm : String)
    (rs rs' : List (String × ProjFile)) (h : upgradeFontV5 font nm rs = some rs') :
    ∀ name, (PngAt rs name → PngAt rs' name) ∧ (YmlAt rs name → YmlAt rs' name) := by
  unfold upgradeFontV5 at h
  cases himg : findResource rs ("Fonts/" ++ nm) with
  | none => rw [himg] at h; simp at h
  | some file =>
    cases file with
    | yml w0 => rw [himg] at h; simp at h
    | png image =>
      rw [himg] at h
      dsimp only at h
      cases hwid : findResource
          (writeResource rs ("Fonts/" ++ nm)
            (.png (expandImage (image_size font).1 (image_size font).2 image)))
          ("Fonts/" ++ nm ++ "_widths") with
      | none => rw [hwid] at h; simp at h
      | some file2 =>
        cases file2 with
        | png i2 => rw [hwid] at h; simp at h
        | yml wd =>
          rw [hwid] at h
          simp only [Option.some.injEq] at h
          subst h
          intro name
          have hne : ("Fonts/" ++ nm ++ "_widths") ≠ ("Fonts/" ++ nm) :=
            Ne.symm (name_ne_widths _)
          by_cases hA : name = "Fonts/" ++ nm
          · subst hA
            constructor
            · intro _
              refine ⟨expandImage (image_size font).1 (image_size font).2 image, ?_⟩
              rw [findResource_write_other _ _ _ _ (name_ne_widths _)]
              exact findResource_write_self _ _ _
            · intro hy
              obtain ⟨w1, hw1⟩ := hy
              rw [himg] at hw1
              cases hw1
          · by_cases hB : name = "Fonts/" ++ nm ++ "_widths"
            · subst hB
              constructor
              · intro hp
                obtain ⟨i1, hi1⟩ := hp
                rw [findResource_write_other _ _ _ _ hne] at hwid
                rw [hwid] at hi1
                cases hi1
              · intro _
                exact ⟨expandWidths wd, findResource_write_self _ _ _⟩
            · constructor
              · intro hp
                obtain ⟨i1, hi1⟩ := hp
                refine ⟨i1, ?_⟩
                rw [findResource_write_other _ _ _ _ hB,
                  findResource_write_other _ _ _ _ hA]
                exact hi1
              · intro hy
                obtain ⟨w1, hw1⟩ := hy
                refine ⟨w1, ?_⟩
                rw [findResource_write_other _ _ _ _ hB,
                  findResource_write_other _ _ _ _ hA]
                exact hw1

theorem applyV5_total :
    ∀ (l : List (EbFont × String)) (rs : List (String × ProjFile)),
      (∀ q ∈ l, PngAt rs ("Fonts/" ++ q.2) ∧ YmlAt rs ("Fonts/" ++ q.2 ++ "_widths")) →
      ∃ rs', applyV5 l rs = some rs' ∧
        ∀ name, (PngAt rs name → PngAt rs' name) ∧ (YmlAt rs name → YmlAt rs' name) := by
  intro l
  induction l with
  | nil =>
    intro rs _
    exact ⟨rs, rfl, fun name => ⟨id, id⟩⟩
  | cons q rest ih =>
    intro rs hpres
    obtain ⟨f, nm⟩ := q
    obtain ⟨⟨img, himg⟩, w0, hw0⟩ := hpres (f, nm) (List.mem_cons_self ..)
    have hne : ("Fonts/" ++ nm ++ "_widths") ≠ ("Fonts/" ++ nm) :=
      Ne.symm (name_ne_widths _)
    have hstep : upgradeFontV5 f nm rs = some
        (writeResource
          (writeResource rs ("Fonts/" ++ nm)
            (.png (expandImage (image_size f).1 (image_size f).2 img)))
          ("Fonts/" ++ nm ++ "_widths") (.yml (expandWidths w0))) := by
      unfold upgradeFontV5
      rw [himg]
      dsimp only
      rw [findResource_write_other _ _ _ _ hne, hw0]
    have hpre1 := upgradeFontV5_preserves f nm rs _ hstep
    obtain ⟨rs', happ, hpres'⟩ := ih _ (fun q' hq' =>
      ⟨(hpre1 _).1 (hpres q' (List.mem_cons_of_mem _ hq')).1,
       (hpre1 _).2 (hpres q' (List.mem_cons_of_mem _ hq')).2⟩)
    refine ⟨rs', ?_, fun name =>
      ⟨fun hp => (hpres' name).1 ((hpre1 name).1 hp),
       fun hy => (hpres' name).2 ((hpre1 name).2 hy)⟩⟩
    simp only [applyV5]
    rw [hstep]
    exact happ

theorem writeResource_preserves_base (proj : List (String × ProjFile)) (rom : Rom)
    (h : BasePresent proj) :
    BasePresent (writeResource proj ("Fonts/credits")
      (ProjFile.png (creditsImageFromRom rom))) := by
  intro nm hnm
  obtain ⟨⟨i, hi⟩, w, hwv⟩ := h nm hnm
  have hne1 : ("Fonts/" ++ nm) ≠ ("Fonts/credits") := by
    fin_cases hnm <;> decide
  have hne2 : ("Fonts/" ++ nm ++ "_widths") ≠ ("Fonts/credits") := by
    fin_cases hnm <;> decide
  exact ⟨⟨i, by rw [findResource_write_other _ _ _ _ hne1]; exact hi⟩,
    ⟨w, by rw [findResource_write_other _ _ _ _ hne2]; exact hwv⟩⟩

theorem upgrade_walk (rom : Rom) :
    ∀ (m old_version new_version : Nat) (proj : List (String × ProjFile)),
      new_version - old_version ≤ m →
      (old_version = new_version ∨ (old_version < new_version ∧ 3 ≤ new_version)) →
      BasePresent proj →
      (upgrade_project initFonts (m + 1) old_version new_version rom proj).isSome := by
  intro m
  induction m with
  | zero =>
    intro old new proj h1 h2 h3
    have he : old = new := by
      rcases h2 with rfl | ⟨hlt, _⟩
      · rfl
      · omega
    subst he
    simp [upgrade_project]
  | succ m ih =>
    intro old new proj h1 h2 h3
    by_cases he : old = new
    · subst he
      simp [upgrade_project]
    · have hlt := h2.resolve_left he
      simp only [upgrade_project]
      rw [if_neg (by simp only [beq_iff_eq]; exact he)]
      by_cases h5 : old = 5
      · subst h5
        rw [if_pos (by simp only [beq_iff_eq])]
        have hpres : ∀ q ∈ initFonts.zip FONT_FILENAMES,
            PngAt proj ("Fonts/" ++ q.2) ∧ YmlAt proj ("Fonts/" ++ q.2 ++ "_widths") := by
          intro q hq
          obtain ⟨q1, q2⟩ := q
          exact h3 q2 (List.of_mem_zip hq).2
        obtain ⟨rs', happ, hpres'⟩ := applyV5_total (initFonts.zip FONT_FILENAMES) proj hpres
        rw [happ]
        apply ih 6 new rs' (by omega) ?_ ?_
        · rcases Nat.eq_or_lt_of_le (show 6 ≤ new by omega) with h6 | h6
          · exact Or.inl h6
          · exact Or.inr ⟨h6, by omega⟩
        · intro nm hnm
          obtain ⟨⟨i, hi⟩, w, hwv⟩ := h3 nm hnm
          exact ⟨(hpres' _).1 ⟨i, hi⟩, (hpres' _).2 ⟨w, hwv⟩⟩
      · rw [if_neg (by simp only [beq_iff_eq]; exact h5)]
        by_cases h2c : old ≤ 2
        · rw [if_pos h2c]
          apply ih 3 new _ (by omega) ?_ (writeResource_preserves_base proj rom h3)
          rcases Nat.eq_or_lt_of_le hlt.2 with h3e | h3e
          · exact Or.inl h3e
          · exact Or.inr ⟨h3e, hlt.2⟩
        · rw [if_neg h2c]
          apply ih (old + 1) new proj (by omega) ?_ h3
          rcases Nat.eq_or_lt_of_le (show old + 1 ≤ new by omega) with he1 | he1
          · exact Or.inl he1
          · exact Or.inr ⟨he1, hlt.2⟩

/-- C2 (amended): whenever the versions are equal, or the target version is
at least 3 and above the old version and the base font resources are
present, the migration walk terminates, reaching the target version within
`new - old + 1` recursive steps; the terminal state `old == new` returns
immediately as a no-op leaving the project untouched.  (As the
counterexample shows, the walk diverges for other version pairs, so the
original unconditional claim is false.) -/
theorem upgrade_project_terminates (rom : Rom) (proj : List (String × ProjFile))
    (old_version new_version : Nat)
    (hres : BasePresent proj)
    (hv : old_version = new_version ∨
      (old_version < new_version ∧ 3 ≤ new_version)) :
    (upgrade_project initFonts (new_version + 1 - old_version) old_version new_version
      rom proj).isSome ∧
    upgrade_project initFonts 1 new_version new_version rom proj = some proj := by
  constructor
  · have hle : old_version ≤ new_version := by
      rcases hv with rfl | ⟨h, _⟩ <;> omega
    have heq : new_version + 1 - old_version = (new_version - old_version) + 1 := by
      omega
    rw [heq]
    exact upgrade_walk rom (new_version - old_version) old_version new_version proj
      le_rfl hv hres
  · simp [upgrade_project]

/-- C2 witness: a migration from version 3 to version 7 (crossing the v5
step) over a project holding all base resources. -/
theorem upgrade_project_terminates_witness :
    (upgrade_project initFonts (7 + 1 - 3) 3 7 ⟨[], []⟩ projW).isSome ∧
    upgrade_project initFonts 1 7 7 ⟨[], []⟩ projW = some projW := by
  apply upgrade_project_terminates
  · intro nm hnm
    fin_cases hnm <;> exact ⟨⟨_, rfl⟩, ⟨_, rfl⟩⟩
  · exact Or.inr ⟨by omega, by omega⟩

theorem upgrade_project_stuck (rom : Rom) (proj : List (String × ProjFile)) :
    ∀ (fuel old_version : Nat), 6 < old_version →
      upgrade_project initFonts fuel old_version 6 rom proj = none := by
  intro fuel
  induction fuel with
  | zero => intro o h; rfl
  | succ n ih =>
    intro o h
    simp only [upgrade_project]
    rw [if_neg (by simp only [beq_iff_eq]; omega),
      if_neg (by simp only [beq_iff_eq]; omega),
      if_neg (by omega)]
    exact ih (o + 1) (by omega)

/-- C2 counterexample: the claim "for every pair of versions the migration
walk terminates, reaching targetVersion" is false on the code: starting at
version 7 with target 6 the recursion increments the version forever and
never returns, for any recursion depth. -/
theorem upgrade_project_not_total :
    ¬ UpgradeTerminates initFonts 7 6 ⟨[], []⟩ [] := by
  rintro ⟨fuel, h⟩
  rw [upgrade_project_stuck ⟨[], []⟩ [] fuel 7 (by omega)] at h
  simp at h
